import Mathlib

/-!
Verification development for the MOBI writer of this repository
(src/ebooks/mobi/writer.py).  Python byte strings are modelled as List Nat
(each element one byte value), Python unbounded integers as Int, or as Nat
where the source value is provably non-negative, and BytesIO buffers as a
List Nat together with an explicit stream position.  Fallible or potentially
non-terminating code paths are modelled with Option / Except.
-/

set_option maxHeartbeats 1000000

namespace MobiWriter

/-! ### Variable width integer codec (writer.py lines 92-107) -/

/-- Direction flag for decint, writer.py line 92. -/
def DECINT_FORWARD : Nat := 0

/-- Direction flag for decint, writer.py line 93. -/
def DECINT_BACKWARD : Nat := 1

/-- Loop of decint (writer.py lines 96-102): repeatedly emit the low seven
bits (value AND 0x7f) and shift the value right by seven until it is zero,
least significant group first.  The fuel argument only bounds the recursion;
value + 1 steps always suffice (decintChunksF_congr). -/
def decintChunksF : Nat → Nat → List Nat
  | 0, _ => []
  | fuel + 1, value =>
    let b := value &&& 0x7f
    let v2 := value >>> 7
    if v2 = 0 then [b] else b :: decintChunksF fuel v2

/-- Chunk list produced by the decint loop, least significant group first. -/
def decintChunks (value : Nat) : List Nat :=
  decintChunksF (value + 1) value

/-- Model of result[0] |= 0x80 (writer.py line 104). -/
def markHead : List Nat → List Nat
  | [] => []
  | b :: t => (b ||| 0x80) :: t

/-- Model of result[-1] |= 0x80 (writer.py line 106). -/
def markLast (l : List Nat) : List Nat :=
  (markHead l.reverse).reverse

/-- Model of decint (writer.py lines 94-107): collect the 7-bit groups of a
non-negative value, set the 0x80 flag on the first or last collected group
according to the direction, and return the reversed (most significant first)
byte list. -/
def decint (value : Nat) (direction : Nat) : List Nat :=
  let result := decintChunks value
  let result :=
    if direction = DECINT_FORWARD then markHead result
    else if direction = DECINT_BACKWARD then markLast result
    else result
  result.reverse

/-- Modelled from the spec (section 4.A, missing from src which has no
decoder): a forward VWI is read most significant group first, accumulating
seven bits per byte and stopping at the byte that carries the 0x80 flag. -/
def decodeFwAux (acc : Nat) : List Nat → Option Nat
  | [] => none
  | b :: t =>
    if 128 ≤ b then some (acc * 128 + b % 128) else decodeFwAux (acc * 128 + b % 128) t

/-- Forward VWI decoder entry point. -/
def decodeForwardVwi (l : List Nat) : Option Nat :=
  decodeFwAux 0 l

/-- Longest suffix headed by a byte with the 0x80 flag; a backward VWI is
found by scanning backwards from the end of the data to the flagged byte. -/
def lastFlaggedSuffix : List Nat → Option (List Nat)
  | [] => none
  | b :: t =>
    match lastFlaggedSuffix t with
    | some s => some s
    | none => if 128 ≤ b then some (b :: t) else none

/-- Modelled from the spec (section 4.A, missing from src which has no
decoder): backward VWI decoder. -/
def decodeBackwardVwi (l : List Nat) : Option Nat :=
  (lastFlaggedSuffix l).map (fun s => s.foldl (fun a b => a * 128 + b % 128) 0)

theorem decintChunksF_congr (v : Nat) : ∀ f1 f2 : Nat, v < f1 → v < f2 →
    decintChunksF f1 v = decintChunksF f2 v := by
  induction v using Nat.strong_induction_on with
  | _ v ih =>
    intro f1 f2 h1 h2
    obtain ⟨g1, rfl⟩ : ∃ g, f1 = g + 1 := ⟨f1 - 1, by omega⟩
    obtain ⟨g2, rfl⟩ : ∃ g, f2 = g + 1 := ⟨f2 - 1, by omega⟩
    simp only [decintChunksF]
    split
    · rfl
    · rename_i hne
      have hvpos : 0 < v := by
        rcases Nat.eq_zero_or_pos v with h0 | h0
        · subst h0; simp [Nat.shiftRight_eq_div_pow] at hne
        · exact h0
      have hlt : v >>> 7 < v := by
        rw [Nat.shiftRight_eq_div_pow]
        exact Nat.div_lt_self hvpos (by norm_num)
      congr 1
      exact ih _ hlt _ _ (by omega) (by omega)

theorem and_127_eq_mod (v : Nat) : v &&& 127 = v % 128 := by
  have := Nat.and_pow_two_sub_one_eq_mod v 7
  norm_num at this
  exact this

theorem shiftRight7_eq_div (v : Nat) : v >>> 7 = v / 128 := by
  rw [Nat.shiftRight_eq_div_pow]

theorem decintChunks_of_lt (v : Nat) (h : v < 128) : decintChunks v = [v] := by
  have hsh : v >>> 7 = 0 := by rw [shiftRight7_eq_div]; omega
  have hand : v &&& 127 = v := by rw [and_127_eq_mod]; omega
  simp [decintChunks, decintChunksF, hsh, hand]

theorem decintChunks_of_ge (v : Nat) (h : 128 ≤ v) :
    decintChunks v = (v % 128) :: decintChunks (v >>> 7) := by
  have hsh : v >>> 7 ≠ 0 := by rw [shiftRight7_eq_div]; omega
  have hlt : v >>> 7 < v := by rw [shiftRight7_eq_div]; omega
  have hand : v &&& 127 = v % 128 := and_127_eq_mod v
  show decintChunksF (v + 1) v = _
  rw [decintChunksF]
  simp only [hsh, if_false, hand]
  congr 1
  exact decintChunksF_congr _ _ _ hlt (by omega)

theorem decintChunks_ne_nil (v : Nat) : decintChunks v ≠ [] := by
  rcases Nat.lt_or_ge v 128 with h | h
  · rw [decintChunks_of_lt v h]; simp
  · rw [decintChunks_of_ge v h]; simp

theorem decintChunks_all_lt (v : Nat) : ∀ b ∈ decintChunks v, b < 128 := by
  induction v using Nat.strong_induction_on with
  | _ v ih =>
    rcases Nat.lt_or_ge v 128 with h | h
    · rw [decintChunks_of_lt v h]; simpa using h
    · rw [decintChunks_of_ge v h]
      intro b hb
      rcases List.mem_cons.mp hb with rfl | hb
      · omega
      · have hlt : v >>> 7 < v := by rw [shiftRight7_eq_div]; omega
        exact ih _ hlt b hb

theorem foldl_chunks (v : Nat) : ∀ acc : Nat,
    ((decintChunks v).reverse).foldl (fun a b => a * 128 + b % 128) acc =
      acc * 128 ^ (decintChunks v).length + v := by
  induction v using Nat.strong_induction_on with
  | _ v ih =>
    intro acc
    rcases Nat.lt_or_ge v 128 with h | h
    · rw [decintChunks_of_lt v h]
      simp [List.foldl]
      omega
    · rw [decintChunks_of_ge v h]
      have hlt : v >>> 7 < v := by rw [shiftRight7_eq_div]; omega
      simp only [List.reverse_cons, List.foldl_append, List.foldl_cons, List.foldl_nil,
        List.length_cons]
      rw [ih _ hlt acc]
      have hv : (v >>> 7) * 128 + v % 128 % 128 = v := by
        rw [shiftRight7_eq_div]
        omega
      rw [pow_succ]
      ring_nf
      ring_nf at hv ⊢
      omega

theorem decodeFwAux_unflagged (l : List Nat) (hl : ∀ b ∈ l, b < 128) :
    ∀ (acc : Nat) (rest : List Nat),
      decodeFwAux acc (l ++ rest) =
        decodeFwAux (l.foldl (fun a b => a * 128 + b % 128) acc) rest := by
  induction l with
  | nil => intro acc rest; simp
  | cons b t iht =>
    intro acc rest
    have hb : b < 128 := hl b (by simp)
    simp only [List.cons_append, decodeFwAux, List.foldl_cons]
    rw [if_neg (by omega)]
    exact iht (fun x hx => hl x (by simp [hx])) _ rest

theorem decode_decint_forward (v : Nat) :
    decodeForwardVwi (decint v DECINT_FORWARD) = some v := by
  have hshape : decint v DECINT_FORWARD =
      (decintChunks v).tail.reverse ++ [(decintChunks v).headD 0 ||| 128] := by
    unfold decint
    simp only [DECINT_FORWARD, DECINT_BACKWARD, if_pos rfl]
    obtain ⟨c, C, hc⟩ : ∃ c C, decintChunks v = c :: C := by
      cases h : decintChunks v with
      | nil => exact absurd h (decintChunks_ne_nil v)
      | cons c C => exact ⟨c, C, rfl⟩
    rw [hc]
    simp [markHead]
  rw [decodeForwardVwi, hshape]
  have htail : ∀ b ∈ (decintChunks v).tail.reverse, b < 128 := by
    intro b hb
    exact decintChunks_all_lt v b (List.mem_of_mem_tail (List.mem_reverse.mp hb))
  rw [decodeFwAux_unflagged _ htail 0 _]
  rcases Nat.lt_or_ge v 128 with h | h
  · rw [decintChunks_of_lt v h]
    have : v ||| 128 = v + 128 := by interval_cases v <;> rfl
    simp [decodeFwAux, this]
    omega
  · rw [decintChunks_of_ge v h]
    simp only [List.tail_cons, List.headD_cons]
    have hmod : v % 128 ||| 128 = v % 128 + 128 := by
      have hb : v % 128 < 128 := by omega
      set b := v % 128 with hbdef
      interval_cases b <;> rfl
    rw [foldl_chunks (v >>> 7) 0]
    simp only [decodeFwAux, hmod]
    rw [if_pos (by omega)]
    have : (v % 128 + 128) % 128 = v % 128 := by omega
    rw [this]
    have hv : (v >>> 7) * 128 + v % 128 = v := by rw [shiftRight7_eq_div]; omega
    simp
    omega

theorem lastFlaggedSuffix_of_unflagged (l : List Nat) (h : ∀ b ∈ l, b < 128) :
    lastFlaggedSuffix l = none := by
  induction l with
  | nil => rfl
  | cons b t iht =>
    have hb : b < 128 := h b (by simp)
    simp only [lastFlaggedSuffix]
    rw [iht (fun x hx => h x (by simp [hx]))]
    simp [Nat.not_le.mpr hb]

theorem lastFlaggedSuffix_flag_head (b : Nat) (t : List Nat) (hb : 128 ≤ b)
    (ht : ∀ x ∈ t, x < 128) : lastFlaggedSuffix (b :: t) = some (b :: t) := by
  simp only [lastFlaggedSuffix]
  rw [lastFlaggedSuffix_of_unflagged t ht]
  simp [hb]

theorem foldl_markHead (l : List Nat) (hl : ∀ b ∈ l, b < 128) (acc : Nat) :
    (markHead l).foldl (fun a b => a * 128 + b % 128) acc =
      l.foldl (fun a b => a * 128 + b % 128) acc := by
  cases l with
  | nil => rfl
  | cons b t =>
    have hb : b < 128 := hl b (by simp)
    have : (b ||| 128) % 128 = b % 128 := by
      have : b ||| 128 = b + 128 := by interval_cases b <;> rfl
      omega
    simp [markHead, this]

theorem decode_decint_backward (v : Nat) :
    decodeBackwardVwi (decint v DECINT_BACKWARD) = some v := by
  have hshape : decint v DECINT_BACKWARD = markHead ((decintChunks v).reverse) := by
    unfold decint
    simp [DECINT_FORWARD, DECINT_BACKWARD, markLast]
  rw [hshape]
  obtain ⟨m, rest, hmr⟩ : ∃ m rest, (decintChunks v).reverse = m :: rest := by
    cases h : (decintChunks v).reverse with
    | nil =>
      exact absurd (by simpa using congrArg List.reverse h) (decintChunks_ne_nil v)
    | cons m rest => exact ⟨m, rest, rfl⟩
  have hall : ∀ b ∈ (decintChunks v).reverse, b < 128 := by
    intro b hb
    exact decintChunks_all_lt v b (List.mem_reverse.mp hb)
  have hm : m < 128 := hall m (by rw [hmr]; simp)
  have hrest : ∀ b ∈ rest, b < 128 := fun b hb => hall b (by rw [hmr]; simp [hb])
  have hflag : m ||| 128 = m + 128 := by interval_cases m <;> rfl
  rw [hmr]
  simp only [markHead, decodeBackwardVwi]
  rw [lastFlaggedSuffix_flag_head _ _ (by omega) hrest]
  simp only [Option.map_some']
  congr 1
  have := foldl_markHead ((decintChunks v).reverse) hall 0
  rw [hmr] at this
  simp only [markHead] at this
  rw [this, ← hmr, foldl_chunks v 0]
  simp

/-- C2 counterexample: the forward encoding of 128 is [1, 0x80], whose first
emitted byte (1) does not carry bit 0x80 (the flag sits on the last byte);
the backward encoding of 128 is [0x81, 0x00], whose last emitted byte does
not carry bit 0x80 (the flag sits on the first byte).  This refutes the
claim that the forward form flags the first byte and the backward form flags
the last byte. -/
theorem decint_flag_position_counterexample :
    decint 128 DECINT_FORWARD = [1, 128] ∧
    (decint 128 DECINT_FORWARD).head? = some 1 ∧ ¬ 128 ≤ 1 ∧
    decint 128 DECINT_BACKWARD = [129, 0] ∧
    (decint 128 DECINT_BACKWARD).getLast? = some 0 ∧ ¬ 128 ≤ 0 := by
  decide

/-- C2 amended: decint groups the value into 7-bit chunks emitted most
significant first; the FORWARD direction sets bit 0x80 on exactly the last
emitted byte, the BACKWARD direction on exactly the first emitted byte;
decoding either encoding recovers the value, and the encoding of 0 is one
byte long. -/
theorem decint_vwi_spec (n : Nat) :
    (∃ u f, decint n DECINT_FORWARD = u ++ [f] ∧ (∀ b ∈ u, b < 128) ∧ 128 ≤ f) ∧
    (∃ f u, decint n DECINT_BACKWARD = f :: u ∧ 128 ≤ f ∧ (∀ b ∈ u, b < 128)) ∧
    decodeForwardVwi (decint n DECINT_FORWARD) = some n ∧
    decodeBackwardVwi (decint n DECINT_BACKWARD) = some n ∧
    (decint 0 DECINT_FORWARD).length = 1 ∧
    (decint 0 DECINT_BACKWARD).length = 1 := by
  refine ⟨?_, ?_, decode_decint_forward n, decode_decint_backward n, by decide, by decide⟩
  · obtain ⟨c, C, hc⟩ : ∃ c C, decintChunks n = c :: C := by
      cases h : decintChunks n with
      | nil => exact absurd h (decintChunks_ne_nil n)
      | cons c C => exact ⟨c, C, rfl⟩
    have hc128 : c < 128 := decintChunks_all_lt n c (by rw [hc]; simp)
    have hflag : c ||| 128 = c + 128 := by interval_cases c <;> rfl
    refine ⟨C.reverse, c + 128, ?_, ?_, by omega⟩
    · unfold decint
      simp only [DECINT_FORWARD, DECINT_BACKWARD, if_pos rfl]
      rw [hc]
      simp [markHead, hflag]
    · intro b hb
      exact decintChunks_all_lt n b (by rw [hc]; simp [List.mem_reverse.mp hb])
  · obtain ⟨m, rest, hmr⟩ : ∃ m rest, (decintChunks n).reverse = m :: rest := by
      cases h : (decintChunks n).reverse with
      | nil =>
        exact absurd (by simpa using congrArg List.reverse h) (decintChunks_ne_nil n)
      | cons m rest => exact ⟨m, rest, rfl⟩
    have hall : ∀ b ∈ (decintChunks n).reverse, b < 128 := by
      intro b hb
      exact decintChunks_all_lt n b (List.mem_reverse.mp hb)
    have hm : m < 128 := hall m (by rw [hmr]; simp)
    have hflag : m ||| 128 = m + 128 := by interval_cases m <;> rfl
    refine ⟨m + 128, rest, ?_, by omega, ?_⟩
    · unfold decint
      simp only [DECINT_FORWARD, DECINT_BACKWARD]
      norm_num [markLast]
      rw [hmr]
      simp [markHead, hflag]
    · intro b hb
      exact hall b (by rw [hmr]; simp [hb])

/-! ### Termination of the decint loop (claim C10) -/

/-- One iteration of the decint loop state on a Python unbounded integer:
value >>= 7 is an arithmetic right shift, i.e. floor division by 128
(writer.py line 99). -/
def decintShift (v : Int) : Int := Int.fdiv v 128

theorem decintShift_negSucc (m : Nat) :
    decintShift (Int.negSucc m) = Int.negSucc (m / 128) := rfl

/-- C10: the decint loop terminates for every non-negative value, because the
iterated arithmetic shift reaches 0; the precondition is necessary, since
from a negative value every iterate stays negative, so the loop condition
value == 0 never holds and the loop never exits. -/
theorem decint_loop_termination (v : Int) :
    (0 ≤ v → ∃ k, decintShift^[k] v = 0) ∧
    (v < 0 → ∀ k, decintShift^[k] v < 0) := by
  constructor
  · intro hv
    obtain ⟨n, rfl⟩ : ∃ n : Nat, v = (n : Int) := ⟨v.toNat, by omega⟩
    clear hv
    induction n using Nat.strong_induction_on with
    | _ n ih =>
      rcases Nat.eq_zero_or_pos n with rfl | hpos
      · exact ⟨0, rfl⟩
      · have hstep : decintShift (n : Int) = ((n / 128 : Nat) : Int) := by
          unfold decintShift
          rw [Int.fdiv_eq_ediv _ (by omega)]
          exact_mod_cast Int.ofNat_ediv n 128
        obtain ⟨k, hk⟩ := ih (n / 128) (Nat.div_lt_self hpos (by norm_num))
        exact ⟨k + 1, by rw [Function.iterate_succ_apply, hstep, hk]⟩
  · intro hv k
    induction k with
    | zero => simpa using hv
    | succ k ihk =>
      rw [Function.iterate_succ_apply']
      obtain ⟨m, hm⟩ : ∃ m : Nat, decintShift^[k] v = Int.negSucc m := by
        rcases h : decintShift^[k] v with n | m
        · rw [h] at ihk
          exact absurd ihk (not_lt.mpr (Int.ofNat_nonneg n))
        · exact ⟨m, rfl⟩
      rw [hm, decintShift_negSucc]
      exact Int.negSucc_lt_zero _

/-- C10 witness: the loop iterate reaches 0 from 1000 and stays negative
from -5. -/
theorem decint_loop_termination_witness :
    (∃ k, decintShift^[k] (1000 : Int) = 0) ∧ (∀ k, decintShift^[k] (-5 : Int) < 0) :=
  ⟨(decint_loop_termination 1000).1 (by norm_num),
   fun k => (decint_loop_termination (-5)).2 (by norm_num) k⟩

/-! ### UTF-8 validity, modelling the Python bytes.decode("utf-8") checks -/

/-- Continuation byte test: 0x80..0xbf. -/
def contB (b : Nat) : Bool := 128 ≤ b && b ≤ 191

/-- First continuation byte constraint of a three byte sequence; the lead
0xe0 excludes overlong encodings and 0xed excludes surrogates. -/
def cont3 (b0 c1 : Nat) : Bool :=
  if b0 = 0xe0 then 0xa0 ≤ c1 && c1 ≤ 0xbf
  else if b0 = 0xed then 0x80 ≤ c1 && c1 ≤ 0x9f
  else contB c1

/-- First continuation byte constraint of a four byte sequence; the lead
0xf0 excludes overlong encodings and 0xf4 values beyond U+10FFFF. -/
def cont4 (b0 c1 : Nat) : Bool :=
  if b0 = 0xf0 then 0x90 ≤ c1 && c1 ≤ 0xbf
  else if b0 = 0xf4 then 0x80 ≤ c1 && c1 ≤ 0x8f
  else contB c1

/-- Length of the UTF-8 code point starting at the head of the list, when
the list begins with a complete valid code point. -/
def headChar? : List Nat → Option Nat
  | [] => none
  | b0 :: t =>
    if b0 < 0x80 then some 1
    else if b0 < 0xc2 then none
    else if b0 ≤ 0xdf then
      match t with
      | c1 :: _ => if contB c1 then some 2 else none
      | [] => none
    else if b0 ≤ 0xef then
      match t with
      | c1 :: c2 :: _ => if cont3 b0 c1 && contB c2 then some 3 else none
      | _ => none
    else if b0 ≤ 0xf4 then
      match t with
      | c1 :: c2 :: c3 :: _ =>
        if cont4 b0 c1 && contB c2 && contB c3 then some 4 else none
      | _ => none
    else none

/-- Fuel driven validity scan: consume one complete code point per step.
Each step consumes at least one byte, so fuel equal to the length of the
list always suffices (utf8ValidF_congr). -/
def utf8ValidF : Nat → List Nat → Bool
  | 0, l => l.isEmpty
  | fuel + 1, l =>
    match headChar? l with
    | some n => utf8ValidF fuel (l.drop n)
    | none => l.isEmpty

/-- Strict UTF-8 validity of a whole byte list, as tested by the Python
last.decode("utf-8") calls in _read_text_record (writer.py lines 371, 378):
the list is a concatenation of complete valid code points. -/
def utf8Valid (l : List Nat) : Bool := utf8ValidF l.length l

/-- Model of the loop test last.decode("utf-8", "ignore") being non-empty
(writer.py line 365): the ignore handler drops offending bytes and keeps
decoded characters, so the result is non-empty exactly when a complete valid
code point starts at some position of the window; the skipped error ranges
never hide such a start, because a continuation byte cannot begin one. -/
def decodeIgnoreNonempty : List Nat → Bool
  | [] => false
  | b :: t => (headChar? (b :: t)).isSome || decodeIgnoreNonempty t

theorem headChar?_pos : ∀ (l : List Nat) (n : Nat), headChar? l = some n →
    1 ≤ n ∧ n ≤ 4 ∧ n ≤ l.length
  | [], n, h => by simp [headChar?] at h
  | [b0], n, h => by
    simp only [headChar?] at h
    split_ifs at h <;> simp_all <;> omega
  | [b0, c1], n, h => by
    simp only [headChar?] at h
    split_ifs at h <;> simp_all <;> omega
  | [b0, c1, c2], n, h => by
    simp only [headChar?] at h
    split_ifs at h <;> simp_all <;> omega
  | b0 :: c1 :: c2 :: c3 :: t, n, h => by
    simp only [headChar?] at h
    split_ifs at h <;> simp_all <;> omega

theorem utf8ValidF_nil : ∀ f, utf8ValidF f [] = true := by
  intro f
  cases f <;> simp [utf8ValidF, headChar?]

theorem utf8ValidF_congr : ∀ (k : Nat) (l : List Nat) (f1 f2 : Nat), l.length ≤ k →
    l.length ≤ f1 → l.length ≤ f2 → utf8ValidF f1 l = utf8ValidF f2 l := by
  intro k
  induction k with
  | zero =>
    intro l f1 f2 hk _ _
    have : l = [] := List.length_eq_zero.mp (by omega)
    subst this
    rw [utf8ValidF_nil, utf8ValidF_nil]
  | succ k ih =>
    intro l f1 f2 hk h1 h2
    cases l with
    | nil => rw [utf8ValidF_nil, utf8ValidF_nil]
    | cons b t =>
      obtain ⟨g1, rfl⟩ : ∃ g, f1 = g + 1 := ⟨f1 - 1, by simp at h1; omega⟩
      obtain ⟨g2, rfl⟩ : ∃ g, f2 = g + 1 := ⟨f2 - 1, by simp at h2; omega⟩
      simp only [utf8ValidF]
      cases hc : headChar? (b :: t) with
      | none => rfl
      | some n =>
        have hn := headChar?_pos _ _ hc
        have hlen : ((b :: t).drop n).length = (b :: t).length - n := by
          simp [List.length_drop]
        have hbt : (b :: t).length = t.length + 1 := by simp
        exact ih _ _ _ (by omega) (by omega) (by omega)

theorem utf8Valid_step (l : List Nat) :
    utf8Valid l = (match headChar? l with
      | some n => utf8Valid (l.drop n)
      | none => l.isEmpty) := by
  cases l with
  | nil => simp [utf8Valid, utf8ValidF_nil, headChar?, List.isEmpty]
  | cons b t =>
    show utf8ValidF (t.length + 1) (b :: t) = _
    simp only [utf8ValidF]
    cases hc : headChar? (b :: t) with
    | none => rfl
    | some n =>
      have hn := headChar?_pos _ _ hc
      simp only []
      exact utf8ValidF_congr ((b :: t).drop n).length _ _ _ (le_refl _)
        (by simp [List.length_drop]; omega) (le_refl _)

theorem utf8Valid_of_headChar (l : List Nat) (n : Nat) (hc : headChar? l = some n) :
    utf8Valid l = utf8Valid (l.drop n) := by
  rw [utf8Valid_step l, hc]

theorem utf8Valid_none_of_stuck (l : List Nat) (hne : l ≠ []) (hc : headChar? l = none) :
    utf8Valid l = false := by
  rw [utf8Valid_step l, hc]
  simpa [List.isEmpty_iff] using hne

theorem contB_range (c : Nat) (h : contB c = true) : 128 ≤ c ∧ c ≤ 191 := by
  simpa [contB] using h

theorem cont3_range (b0 c : Nat) (h : cont3 b0 c = true) : 128 ≤ c ∧ c ≤ 191 := by
  unfold cont3 at h
  split_ifs at h <;> simp [contB] at h <;> omega

theorem cont4_range (b0 c : Nat) (h : cont4 b0 c = true) : 128 ≤ c ∧ c ≤ 191 := by
  unfold cont4 at h
  split_ifs at h <;> simp [contB] at h <;> omega

theorem headChar?_mk1 (b0 : Nat) (t : List Nat) (h : b0 < 128) :
    headChar? (b0 :: t) = some 1 := by
  simp only [headChar?]
  rw [if_pos h]

theorem headChar?_mk2 (b0 c1 : Nat) (t : List Nat) (h1 : 194 ≤ b0) (h2 : b0 ≤ 223)
    (hc : contB c1 = true) : headChar? (b0 :: c1 :: t) = some 2 := by
  simp only [headChar?]
  rw [if_neg (by omega), if_neg (by omega), if_pos (by omega)]
  simp [hc]

theorem headChar?_mk3 (b0 c1 c2 : Nat) (t : List Nat) (h1 : 224 ≤ b0) (h2 : b0 ≤ 239)
    (hc1 : cont3 b0 c1 = true) (hc2 : contB c2 = true) :
    headChar? (b0 :: c1 :: c2 :: t) = some 3 := by
  simp only [headChar?]
  rw [if_neg (by omega), if_neg (by omega), if_neg (by omega), if_pos (by omega)]
  simp [hc1, hc2]

theorem headChar?_mk4 (b0 c1 c2 c3 : Nat) (t : List Nat) (h1 : 240 ≤ b0) (h2 : b0 ≤ 244)
    (hc1 : cont4 b0 c1 = true) (hc2 : contB c2 = true) (hc3 : contB c3 = true) :
    headChar? (b0 :: c1 :: c2 :: c3 :: t) = some 4 := by
  simp only [headChar?]
  rw [if_neg (by omega), if_neg (by omega), if_neg (by omega), if_neg (by omega),
    if_pos (by omega)]
  simp [hc1, hc2, hc3]

theorem headChar?_cont_head (b : Nat) (t : List Nat) (h1 : 128 ≤ b) (h2 : b < 194) :
    headChar? (b :: t) = none := by
  simp only [headChar?]
  rw [if_neg (by omega), if_pos (by omega)]

theorem headChar?_single_none (b0 : Nat) (h : 128 ≤ b0) : headChar? [b0] = none := by
  simp only [headChar?]
  split_ifs <;> first | rfl | omega

theorem headChar?_pair_none (b0 c1 : Nat) (h : 224 ≤ b0) : headChar? [b0, c1] = none := by
  simp only [headChar?]
  split_ifs <;> first | rfl | omega

theorem headChar?_triple_none (b0 c1 c2 : Nat) (h : 240 ≤ b0) :
    headChar? [b0, c1, c2] = none := by
  simp only [headChar?]
  split_ifs <;> first | rfl | omega

theorem headChar?_shape : ∀ (l : List Nat) (n : Nat), headChar? l = some n →
    (n = 1 ∧ ∃ b0 t, l = b0 :: t ∧ b0 < 128) ∨
    (n = 2 ∧ ∃ b0 c1 t, l = b0 :: c1 :: t ∧ 194 ≤ b0 ∧ b0 ≤ 223 ∧ contB c1 = true) ∨
    (n = 3 ∧ ∃ b0 c1 c2 t, l = b0 :: c1 :: c2 :: t ∧ 224 ≤ b0 ∧ b0 ≤ 239 ∧
      cont3 b0 c1 = true ∧ contB c2 = true) ∨
    (n = 4 ∧ ∃ b0 c1 c2 c3 t, l = b0 :: c1 :: c2 :: c3 :: t ∧ 240 ≤ b0 ∧ b0 ≤ 244 ∧
      cont4 b0 c1 = true ∧ contB c2 = true ∧ contB c3 = true)
  | [], n, h => by simp [headChar?] at h
  | [b0], n, h => by
    simp only [headChar?] at h
    split_ifs at h with g1
    exact Or.inl ⟨by injection h; omega, b0, [], rfl, g1⟩
  | [b0, c1], n, h => by
    simp only [headChar?] at h
    split_ifs at h with g1 g2 g3 g4
    · exact Or.inl ⟨by injection h; omega, b0, [c1], rfl, g1⟩
    · exact Or.inr (Or.inl ⟨by injection h; omega, b0, c1, [], rfl, by omega, by omega, g4⟩)
  | [b0, c1, c2], n, h => by
    simp only [headChar?] at h
    split_ifs at h with g1 g2 g3 g4 g5 g6
    · exact Or.inl ⟨by injection h; omega, b0, [c1, c2], rfl, g1⟩
    · exact Or.inr (Or.inl ⟨by injection h; omega, b0, c1, [c2], rfl, by omega, by omega,
        g4⟩)
    · simp only [Bool.and_eq_true] at g6
      exact Or.inr (Or.inr (Or.inl ⟨by injection h; omega, b0, c1, c2, [], rfl, by omega,
        by omega, g6.1, g6.2⟩))
  | b0 :: c1 :: c2 :: c3 :: t, n, h => by
    simp only [headChar?] at h
    split_ifs at h with g1 g2 g3 g4 g5 g6 g7 g8
    · exact Or.inl ⟨by injection h; omega, b0, c1 :: c2 :: c3 :: t, rfl, g1⟩
    · exact Or.inr (Or.inl ⟨by injection h; omega, b0, c1, c2 :: c3 :: t, rfl, by omega,
        by omega, g4⟩)
    · simp only [Bool.and_eq_true] at g6
      exact Or.inr (Or.inr (Or.inl ⟨by injection h; omega, b0, c1, c2, c3 :: t, rfl,
        by omega, by omega, g6.1, g6.2⟩))
    · simp only [Bool.and_eq_true] at g8
      exact Or.inr (Or.inr (Or.inr ⟨by injection h; omega, b0, c1, c2, c3, t, rfl,
        by omega, by omega, g8.1.1, g8.1.2, g8.2⟩))

theorem headChar?_append (l r : List Nat) (n : Nat) (h : headChar? l = some n) :
    headChar? (l ++ r) = some n := by
  rcases headChar?_shape l n h with
    ⟨rfl, b0, t, rfl, hb⟩ |
    ⟨rfl, b0, c1, t, rfl, h1, h2, hc⟩ |
    ⟨rfl, b0, c1, c2, t, rfl, h1, h2, hc1, hc2⟩ |
    ⟨rfl, b0, c1, c2, c3, t, rfl, h1, h2, hc1, hc2, hc3⟩
  · exact headChar?_mk1 _ _ hb
  · exact headChar?_mk2 _ _ _ h1 h2 hc
  · exact headChar?_mk3 _ _ _ _ h1 h2 hc1 hc2
  · exact headChar?_mk4 _ _ _ _ _ h1 h2 hc1 hc2 hc3

theorem headChar?_take (l : List Nat) (n m : Nat) (h : headChar? l = some n)
    (hm : n ≤ m) : headChar? (l.take m) = some n := by
  rcases headChar?_shape l n h with
    ⟨rfl, b0, t, rfl, hb⟩ |
    ⟨rfl, b0, c1, t, rfl, h1, h2, hc⟩ |
    ⟨rfl, b0, c1, c2, t, rfl, h1, h2, hc1, hc2⟩ |
    ⟨rfl, b0, c1, c2, c3, t, rfl, h1, h2, hc1, hc2, hc3⟩
  · obtain ⟨k, rfl⟩ : ∃ k, m = k + 1 := ⟨m - 1, by omega⟩
    simpa [List.take_succ_cons] using headChar?_mk1 b0 (t.take k) hb
  · obtain ⟨k, rfl⟩ : ∃ k, m = k + 2 := ⟨m - 2, by omega⟩
    simpa [List.take_succ_cons] using headChar?_mk2 b0 c1 (t.take k) h1 h2 hc
  · obtain ⟨k, rfl⟩ : ∃ k, m = k + 3 := ⟨m - 3, by omega⟩
    simpa [List.take_succ_cons] using headChar?_mk3 b0 c1 c2 (t.take k) h1 h2 hc1 hc2
  · obtain ⟨k, rfl⟩ : ∃ k, m = k + 4 := ⟨m - 4, by omega⟩
    simpa [List.take_succ_cons] using headChar?_mk4 b0 c1 c2 c3 (t.take k) h1 h2 hc1 hc2 hc3

theorem headChar?_truncate (l : List Nat) (n j : Nat) (h : headChar? l = some n)
    (hj1 : 1 ≤ j) (hj2 : j < n) : headChar? (l.take j) = none := by
  rcases headChar?_shape l n h with
    ⟨rfl, b0, t, rfl, hb⟩ |
    ⟨rfl, b0, c1, t, rfl, h1, h2, hc⟩ |
    ⟨rfl, b0, c1, c2, t, rfl, h1, h2, hc1, hc2⟩ |
    ⟨rfl, b0, c1, c2, c3, t, rfl, h1, h2, hc1, hc2, hc3⟩
  · omega
  · interval_cases j
    simpa using headChar?_single_none b0 (by omega)
  · interval_cases j
    · simpa using headChar?_single_none b0 (by omega)
    · simpa using headChar?_pair_none b0 c1 (by omega)
  · interval_cases j
    · simpa using headChar?_single_none b0 (by omega)
    · simpa using headChar?_pair_none b0 c1 (by omega)
    · simpa using headChar?_triple_none b0 c1 c2 (by omega)

theorem headChar?_drop_inside (l : List Nat) (n j : Nat) (h : headChar? l = some n)
    (hj1 : 1 ≤ j) (hj2 : j < n) :
    ∃ c r, l.drop j = c :: r ∧ 128 ≤ c ∧ c < 194 := by
  rcases headChar?_shape l n h with
    ⟨rfl, b0, t, rfl, hb⟩ |
    ⟨rfl, b0, c1, t, rfl, h1, h2, hc⟩ |
    ⟨rfl, b0, c1, c2, t, rfl, h1, h2, hc1, hc2⟩ |
    ⟨rfl, b0, c1, c2, c3, t, rfl, h1, h2, hc1, hc2, hc3⟩
  · omega
  · interval_cases j
    exact ⟨c1, t, by simp, by have := contB_range c1 hc; omega⟩
  · interval_cases j
    · exact ⟨c1, c2 :: t, by simp, by have := cont3_range b0 c1 hc1; omega⟩
    · exact ⟨c2, t, by simp, by have := contB_range c2 hc2; omega⟩
  · interval_cases j
    · exact ⟨c1, c2 :: c3 :: t, by simp, by have := cont4_range b0 c1 hc1; omega⟩
    · exact ⟨c2, c3 :: t, by simp, by have := contB_range c2 hc2; omega⟩
    · exact ⟨c3, t, by simp, by have := contB_range c3 hc3; omega⟩

theorem utf8Valid_nil : utf8Valid [] = true := rfl

theorem utf8Valid_char_take (l : List Nat) (n : Nat) (h : headChar? l = some n) :
    utf8Valid (l.take n) = true := by
  rw [utf8Valid_of_headChar _ _ (headChar?_take l n n h (le_refl n))]
  have hd : (l.take n).drop n = [] := List.drop_eq_nil_of_le (by simp)
  rw [hd]
  exact utf8Valid_nil

theorem utf8Valid_append_aux : ∀ (k : Nat) (a b : List Nat), a.length ≤ k →
    utf8Valid a = true → utf8Valid (a ++ b) = utf8Valid b := by
  intro k
  induction k with
  | zero =>
    intro a b hk _
    have : a = [] := List.length_eq_zero.mp (by omega)
    subst this
    simp
  | succ k ih =>
    intro a b hk hva
    cases a with
    | nil => simp
    | cons x t =>
      cases hc : headChar? (x :: t) with
      | none =>
        rw [utf8Valid_none_of_stuck _ (by simp) hc] at hva
        exact absurd hva (by simp)
      | some n =>
        rw [utf8Valid_of_headChar _ _ hc] at hva
        have hn := headChar?_pos _ _ hc
        have hca := headChar?_append _ b _ hc
        rw [utf8Valid_of_headChar _ _ hca]
        rw [List.drop_append_of_le_length (by omega)]
        refine ih _ b ?_ hva
        have : (x :: t).length = t.length + 1 := by simp
        simp only [List.length_drop]
        omega

theorem utf8Valid_append (a b : List Nat) (ha : utf8Valid a = true) :
    utf8Valid (a ++ b) = utf8Valid b :=
  utf8Valid_append_aux a.length a b (le_refl _) ha

theorem utf8Valid_drop_of_take (t : List Nat) (s : Nat) (hv : utf8Valid t = true)
    (hs : utf8Valid (t.take s) = true) : utf8Valid (t.drop s) = true := by
  have := utf8Valid_append (t.take s) (t.drop s) hs
  rw [List.take_append_drop] at this
  rw [← this]
  exact hv

theorem utf8Valid_take_add (t : List Nat) (s m : Nat) (hs : utf8Valid (t.take s) = true)
    (hm : utf8Valid ((t.drop s).take m) = true) : utf8Valid (t.take (s + m)) = true := by
  rw [List.take_add]
  rw [utf8Valid_append _ _ hs]
  exact hm

theorem utf8_cover (t : List Nat) (hv : utf8Valid t = true) :
    ∀ i, i ≤ t.length →
      ∃ s, s ≤ i ∧ utf8Valid (t.take s) = true ∧
        (s = i ∨ ∃ n, headChar? (t.drop s) = some n ∧ i < s + n ∧
           utf8Valid (t.take (s + n)) = true ∧ s + n ≤ t.length) := by
  intro i
  induction i with
  | zero =>
    intro _
    exact ⟨0, le_refl _, by simp [utf8Valid_nil], Or.inl rfl⟩
  | succ i ih =>
    intro hi1
    obtain ⟨s, hs, hbs, hcase⟩ := ih (by omega)
    rcases hcase with rfl | ⟨n, hcn, hin, hbn, hlen⟩
    · -- s = i is a boundary; examine the code point starting at i
      have hdrop : utf8Valid (t.drop s) = true := utf8Valid_drop_of_take t s hv hbs
      have hne : t.drop s ≠ [] := by
        have : (t.drop s).length = t.length - s := by simp [List.length_drop]
        intro hnil
        rw [hnil] at this
        simp at this
        omega
      cases hc : headChar? (t.drop s) with
      | none => exact absurd (utf8Valid_none_of_stuck _ hne hc ▸ hdrop) (by simp)
      | some n =>
        have hn := headChar?_pos _ _ hc
        have hdl : (t.drop s).length = t.length - s := by simp [List.length_drop]
        have hbn : utf8Valid (t.take (s + n)) = true :=
          utf8Valid_take_add t s n hbs (utf8Valid_char_take _ _ hc)
        have hsn : s + n ≤ t.length := by omega
        rcases Nat.lt_or_ge (s + 1) (s + n) with hlt | hge
        · exact ⟨s, by omega, hbs, Or.inr ⟨n, hc, by omega, hbn, hsn⟩⟩
        · have : n = 1 := by omega
          subst this
          exact ⟨s + 1, le_refl _, hbn, Or.inl rfl⟩
    · rcases Nat.lt_or_ge (i + 1) (s + n) with hlt | hge
      · exact ⟨s, by omega, hbs, Or.inr ⟨n, hcn, hlt, hbn, hlen⟩⟩
      · have : i + 1 = s + n := by omega
        exact ⟨i + 1, le_refl _, by rw [this]; exact hbn, Or.inl rfl⟩

theorem utf8Valid_take_inside_false (t : List Nat) (s n j : Nat)
    (hbs : utf8Valid (t.take s) = true) (hc : headChar? (t.drop s) = some n)
    (hj1 : 0 < j) (hj2 : j < n) : utf8Valid (t.take (s + j)) = false := by
  rw [List.take_add, utf8Valid_append _ _ hbs]
  have hn := headChar?_pos _ _ hc
  have hnone := headChar?_truncate _ n j hc (by omega) hj2
  apply utf8Valid_none_of_stuck _ _ hnone
  have hlen : ((t.drop s).take j).length = j := by
    rw [List.length_take]
    have : n ≤ (t.drop s).length := hn.2.2
    omega
  intro hnil
  rw [hnil] at hlen
  simp at hlen
  omega

theorem decodeIgnoreNonempty_false_iff (w : List Nat) :
    decodeIgnoreNonempty w = false ↔ ∀ p, headChar? (w.drop p) = none := by
  induction w with
  | nil => simp [decodeIgnoreNonempty, headChar?]
  | cons b t ih =>
    constructor
    · intro h p
      simp only [decodeIgnoreNonempty, Bool.or_eq_false_iff] at h
      cases p with
      | zero =>
        have h1 : headChar? (b :: t) = none :=
          Option.not_isSome_iff_eq_none.mp (by simp [h.1])
        simpa using h1
      | succ q =>
        exact (ih.mp h.2) q
    · intro h
      simp only [decodeIgnoreNonempty, Bool.or_eq_false_iff]
      refine ⟨?_, ih.mpr (fun q => h (q + 1))⟩
      have h0 := h 0
      simp only [List.drop_zero] at h0
      simp [h0]

theorem range'_find?_eq (p : Nat → Bool) : ∀ (n s a : Nat), s ≤ a → a < s + n →
    p a = true → (∀ b, s ≤ b → b < a → p b = false) →
    (List.range' s n).find? p = some a := by
  intro n
  induction n with
  | zero => intro s a h1 h2 _ _; omega
  | succ n ih =>
    intro s a h1 h2 hpa hmin
    rw [List.range'_succ]
    by_cases hs : a = s
    · subst hs
      exact List.find?_cons_of_pos _ hpa
    · rw [List.find?_cons_of_neg _ (by simp [hmin s (le_refl _) (by omega)])]
      exact ih (s + 1) a (by omega) (by omega) hpa (fun b hb1 hb2 => hmin b (by omega) hb2)

theorem range_find?_eq (p : Nat → Bool) (N a : Nat) (ha : a < N) (hpa : p a = true)
    (hmin : ∀ b, b < a → p b = false) : (List.range N).find? p = some a := by
  rw [List.range_eq_range']
  exact range'_find?_eq p N 0 a (by omega) (by omega) hpa (fun b _ hb => hmin b hb)

/-! ### Text record splitting (writer.py lines 360-388 and 1216-1223) -/

/-- Record size constant, writer.py line 54. -/
def RECORD_SIZE : Nat := 0x1000

/-- Compression selector constants, writer.py lines 56-57. -/
def UNCOMPRESSED : Nat := 1

/-- PalmDOC compression selector, writer.py line 57. -/
def PALMDOC : Nat := 2

/-- Bytes of the stream in positions [a, b), as a BytesIO seek plus read
returns them (clamped at the end of the buffer). -/
def sliceB (t : List Nat) (a b : Nat) : List Nat := (t.drop a).take (b - a)

/-- First loop of _read_text_record (writer.py lines 364-368): find the
smallest window size, at least one, whose window [npos - size, npos) decodes
to a non-empty string with errors ignored.  Python would seek to a negative
position for a size beyond npos, so the search is bounded; none models that
failure, which cannot occur on valid UTF-8 input. -/
def firstLoopSize (text : List Nat) (npos : Nat) : Option Nat :=
  (List.range (npos + 1)).find?
    (fun size => decide (1 ≤ size) && decodeIgnoreNonempty (sliceB text (npos - size) npos))

/-- Second loop of _read_text_record (writer.py lines 373-383): keep the
window start npos - prev fixed and extend the window end one byte at a time
until the window decodes strictly; reads clamp at the end of the stream, so
Python would loop forever beyond it; none models that. -/
def secondLoopExtra (text : List Nat) (npos prev : Nat) : Option Nat :=
  ((List.range (text.length - (npos - prev) + 1)).find?
    (fun len => decide (prev < len) &&
      utf8Valid (sliceB text (npos - prev) (npos - prev + len)))).map
    (fun len => len - prev)

/-- Model of MobiWriter._read_text_record (writer.py lines 360-388) reading
at stream position pos: the data is the next RECORD_SIZE bytes, the overlap
is the bytes after the record boundary needed before the stream decodes
strictly (zero bytes when the window already decodes strictly). -/
def readTextRecord (text : List Nat) (pos : Nat) : Option (List Nat × List Nat) :=
  let npos := min (pos + RECORD_SIZE) text.length
  match firstLoopSize text npos with
  | none => none
  | some size =>
    let last := sliceB text (npos - size) npos
    let extra? := if utf8Valid last = true then some 0 else secondLoopExtra text npos size
    match extra? with
    | none => none
    | some extra =>
      some (sliceB text pos (pos + RECORD_SIZE), sliceB text npos (npos + extra))

/-- Record assembly of _generate_text (writer.py lines 1216-1223): the body,
compressed when compression is PALMDOC, then the overlap bytes uncompressed,
then a single byte holding the length of the overlap.  The PalmDOC
compressor compress_doc is external to the repository, hence a parameter. -/
def mkTextRecord (compress : List Nat → List Nat) (compression : Nat)
    (data overlap : List Nat) : List Nat :=
  (if compression = PALMDOC then compress data else data) ++ overlap ++ [overlap.length]

theorem sliceB_drop (t : List Nat) (a b p : Nat) :
    (sliceB t a b).drop p = sliceB t (a + p) b := by
  unfold sliceB
  rw [List.drop_take, List.drop_drop]
  congr 1
  omega

theorem sliceB_length (t : List Nat) (a b : Nat) (hab : a ≤ b) (hb : b ≤ t.length) :
    (sliceB t a b).length = b - a := by
  unfold sliceB
  rw [List.length_take, List.length_drop]
  omega

theorem utf8Valid_slice_iff (t : List Nat) (a b : Nat) (hab : a ≤ b)
    (ha : utf8Valid (t.take a) = true) :
    utf8Valid (sliceB t a b) = utf8Valid (t.take b) := by
  have h : t.take b = t.take a ++ sliceB t a b := by
    unfold sliceB
    have : b = a + (b - a) := by omega
    rw [this, List.take_add]
    congr 2
    omega
  rw [h, utf8Valid_append _ _ ha]

theorem headChar?_take_none_of_cont_head (l : List Nat) (L : Nat) (c : Nat) (r : List Nat)
    (hl : l = c :: r) (h1 : 128 ≤ c) (h2 : c < 194) : headChar? (l.take L) = none := by
  subst hl
  cases L with
  | zero => simp [headChar?]
  | succ L =>
    rw [List.take_succ_cons]
    exact headChar?_cont_head c _ h1 h2

theorem headChar?_take_none_of_truncated (l : List Nat) (n L : Nat)
    (hc : headChar? l = some n) (hL : L < n) : headChar? (l.take L) = none := by
  cases L with
  | zero => simp [headChar?]
  | succ L => exact headChar?_truncate l n (L + 1) hc (by omega) hL

theorem decodeIgnoreNonempty_true_of_head (w : List Nat) (h : (headChar? w).isSome = true) :
    decodeIgnoreNonempty w = true := by
  cases w with
  | nil => simp [headChar?] at h
  | cons b t => simp [decodeIgnoreNonempty, h]

/-- No window inside the straddle region contains a code point start: every
position of [a, b) is either strictly inside the code point at s1 or at s,
or is the start s of the code point truncated by the window end b. -/
theorem decodeIgnore_false_straddle (t : List Nat) (s n a b : Nat)
    (hc : headChar? (t.drop s) = some n)
    (hsa : s ≤ a ∨ (∃ s1 n1, headChar? (t.drop s1) = some n1 ∧ s1 + n1 = s ∧ s1 < a))
    (hab : a ≤ b) (hbsn : b ≤ s + n) (hnw : s < a ∨ b < s + n) (hsb : s < b) :
    decodeIgnoreNonempty (sliceB t a b) = false := by
  rw [decodeIgnoreNonempty_false_iff]
  intro p
  rw [sliceB_drop]
  by_cases hp : a + p < b
  · -- position u = a + p of the stream
    set u := a + p with hu
    have hub : b - (a + p) = b - u := by rw [hu]
    rcases Nat.lt_trichotomy u s with hus | hus | hus
    · -- inside the previous code point
      rcases hsa with hsa | ⟨s1, n1, hc1, hes, hs1a⟩
      · omega
      · have hj : 1 ≤ u - s1 ∧ u - s1 < n1 := by omega
        obtain ⟨c, r, hcr, hc1c, hc2c⟩ :=
          headChar?_drop_inside (t.drop s1) n1 (u - s1) hc1 hj.1 hj.2
        rw [List.drop_drop] at hcr
        have : s1 + (u - s1) = u := by omega
        rw [this] at hcr
        exact headChar?_take_none_of_cont_head _ _ c r hcr hc1c hc2c
    · -- at the start of the truncated code point
      subst hus
      have hbu : b - u < n := by
        rcases hnw with hnw | hnw
        · omega
        · omega
      exact headChar?_take_none_of_truncated _ n _ hc (by omega)
    · -- inside the truncated code point
      have hj : 1 ≤ u - s ∧ u - s < n := by omega
      obtain ⟨c, r, hcr, hc1c, hc2c⟩ := headChar?_drop_inside (t.drop s) n (u - s) hc hj.1 hj.2
      rw [List.drop_drop] at hcr
      have : s + (u - s) = u := by omega
      rw [this] at hcr
      exact headChar?_take_none_of_cont_head _ _ c r hcr hc1c hc2c
  · -- window is exhausted
    unfold sliceB
    have : b - (a + p) = 0 := by omega
    rw [this]
    simp [headChar?]

/-- Existence of the code point ending exactly at a positive boundary. -/
theorem char_ending_at (t : List Nat) (e : Nat) (hv : utf8Valid t = true)
    (he1 : 1 ≤ e) (he2 : e ≤ t.length) (hbe : utf8Valid (t.take e) = true) :
    ∃ s n, utf8Valid (t.take s) = true ∧ headChar? (t.drop s) = some n ∧
      s + n = e ∧ 1 ≤ n ∧ n ≤ 4 := by
  obtain ⟨s, hs, hbs, hcase⟩ := utf8_cover t hv (e - 1) (by omega)
  rcases hcase with hse | ⟨n, hc, hin, hbn, hlen⟩
  · subst hse
    have hdrop := utf8Valid_drop_of_take t (e - 1) hv hbs
    have hne : t.drop (e - 1) ≠ [] := by
      intro hnil
      have := congrArg List.length hnil
      rw [List.length_drop] at this
      simp at this
      omega
    cases hc : headChar? (t.drop (e - 1)) with
    | none => exact absurd (utf8Valid_none_of_stuck _ hne hc ▸ hdrop) (by simp)
    | some n =>
      have hn := headChar?_pos _ _ hc
      rcases Nat.lt_or_ge 1 n with hn2 | hn2
      · -- impossible: e would be strictly inside this code point
        have := utf8Valid_take_inside_false t (e - 1) n 1 hbs hc (by omega) (by omega)
        rw [show e - 1 + 1 = e by omega] at this
        rw [this] at hbe
        exact absurd hbe (by simp)
      · have : n = 1 := by omega
        subst this
        exact ⟨e - 1, 1, hbs, hc, by omega, by omega, by omega⟩
  · have hn := headChar?_pos _ _ hc
    rcases Nat.lt_or_ge e (s + n) with hlt | hge
    · -- impossible: e strictly inside the code point at s
      have hes : s < e := by omega
      have := utf8Valid_take_inside_false t s n (e - s) hbs hc (by omega) (by omega)
      rw [show s + (e - s) = e by omega] at this
      rw [this] at hbe
      exact absurd hbe (by simp)
    · have : s + n = e := by omega
      exact ⟨s, n, hbs, hc, this, by omega, by omega⟩

theorem firstLoopSize_boundary (t : List Nat) (npos s n : Nat)
    (hc : headChar? (t.drop s) = some n) (hsn : s + n = npos) :
    firstLoopSize t npos = some n := by
  have hn := headChar?_pos _ _ hc
  unfold firstLoopSize
  apply range_find?_eq
  · omega
  · have hwin : npos - n = s := by omega
    rw [hwin]
    have hslice : sliceB t s npos = (t.drop s).take n := by
      unfold sliceB
      congr 1
      omega
    rw [hslice]
    simp only [Bool.and_eq_true, decide_eq_true_eq]
    refine ⟨by omega, ?_⟩
    apply decodeIgnoreNonempty_true_of_head
    rw [headChar?_take _ _ _ hc (le_refl n)]
    rfl
  · intro b hb
    cases b with
    | zero => simp
    | succ b =>
      simp only [Bool.and_eq_false_iff]
      right
      apply decodeIgnore_false_straddle t s n (npos - (b + 1)) npos hc
      · left; omega
      · omega
      · omega
      · left; omega
      · omega

theorem firstLoopSize_straddle (t : List Nat) (npos s n s1 n1 : Nat)
    (hc : headChar? (t.drop s) = some n) (hc1 : headChar? (t.drop s1) = some n1)
    (hs1 : s1 + n1 = s) (hsn : s < npos) (hnn : npos < s + n) :
    firstLoopSize t npos = some (npos - s1) := by
  have hn := headChar?_pos _ _ hc
  have hn1 := headChar?_pos _ _ hc1
  unfold firstLoopSize
  apply range_find?_eq
  · omega
  · have hwin : npos - (npos - s1) = s1 := by omega
    rw [hwin]
    have hslice : sliceB t s1 npos = (t.drop s1).take (npos - s1) := rfl
    rw [hslice]
    simp only [Bool.and_eq_true, decide_eq_true_eq]
    refine ⟨by omega, ?_⟩
    apply decodeIgnoreNonempty_true_of_head
    rw [headChar?_take _ _ _ hc1 (by omega)]
    rfl
  · intro b hb
    cases b with
    | zero => simp
    | succ b =>
      simp only [Bool.and_eq_false_iff]
      right
      apply decodeIgnore_false_straddle t s n (npos - (b + 1)) npos hc
      · rcases le_or_lt s (npos - (b + 1)) with hcase | hcase
        · left; exact hcase
        · right; exact ⟨s1, n1, hc1, hs1, by omega⟩
      · omega
      · omega
      · right; omega
      · omega

theorem secondLoopExtra_straddle (t : List Nat) (npos s n s1 n1 : Nat)
    (hbs1 : utf8Valid (t.take s1) = true)
    (hc : headChar? (t.drop s) = some n) (hc1 : headChar? (t.drop s1) = some n1)
    (hs1 : s1 + n1 = s) (hsn : s < npos) (hnn : npos < s + n)
    (hbe : utf8Valid (t.take (s + n)) = true) (hel : s + n ≤ t.length) :
    secondLoopExtra t npos (npos - s1) = some ((s + n) - npos) := by
  have hn := headChar?_pos _ _ hc
  have hn1 := headChar?_pos _ _ hc1
  have hbs : utf8Valid (t.take s) = true := by
    rw [← hs1]
    exact utf8Valid_take_add t s1 n1 hbs1 (utf8Valid_char_take _ _ hc1)
  unfold secondLoopExtra
  have hstart : npos - (npos - s1) = s1 := by omega
  simp only [hstart]
  rw [range_find?_eq _ _ (s + n - s1) (by omega) ?_ ?_]
  · simp only [Option.map_some']
    congr 1
    omega
  · simp only [Bool.and_eq_true, decide_eq_true_eq]
    refine ⟨by omega, ?_⟩
    have : s1 + (s + n - s1) = s + n := by omega
    rw [this, utf8Valid_slice_iff t s1 (s + n) (by omega) hbs1]
    exact hbe
  · intro b hb
    by_cases hpb : npos - s1 < b
    · simp only [Bool.and_eq_false_iff]
      right
      have : s1 + b < s + n := by omega
      rw [utf8Valid_slice_iff t s1 (s1 + b) (by omega) hbs1]
      have := utf8Valid_take_inside_false t s n (s1 + b - s) hbs hc (by omega) (by omega)
      rw [show s + (s1 + b - s) = s1 + b by omega] at this
      exact this
    · simp only [Bool.and_eq_false_iff]
      left
      simp only [decide_eq_false_iff_not]
      omega

/-- C1: for every valid-UTF-8 serialized text stream and every record start
position (also one inside a code point, as the re-seek to npos after a
nonempty overlap produces), _read_text_record returns the next RECORD_SIZE bytes
(or the remainder at the end of the stream) as data plus an overlap of at
most three bytes; the stream is valid UTF-8 up to and including the record
boundary plus overlap; the overlap is exactly the bytes needed (no shorter
prefix restores validity); and the emitted record is the body, replaced by
the external PalmDOC compressor output when compression is PALMDOC, followed
by the overlap uncompressed, followed by one byte holding the length of the
overlap (writer.py lines 360-388 and 1216-1223). -/
theorem read_text_record_spec (text : List Nat) (pos : Nat)
    (hv : utf8Valid text = true)
    (hlt : pos < text.length) :
    ∃ overlap,
      readTextRecord text pos =
        some (sliceB text pos (pos + RECORD_SIZE), overlap) ∧
      overlap.length ≤ 3 ∧
      utf8Valid (text.take (min (pos + RECORD_SIZE) text.length + overlap.length)) = true ∧
      (∀ k, k < overlap.length →
        utf8Valid (text.take (min (pos + RECORD_SIZE) text.length + k)) = false) ∧
      (∀ compress compression,
        mkTextRecord compress compression (sliceB text pos (pos + RECORD_SIZE)) overlap =
          (if compression = PALMDOC then compress (sliceB text pos (pos + RECORD_SIZE))
            else sliceB text pos (pos + RECORD_SIZE)) ++ overlap ++ [overlap.length]) := by
  have hr : RECORD_SIZE = 4096 := rfl
  set npos := min (pos + RECORD_SIZE) text.length with hnpos
  have hnple : npos ≤ text.length := by omega
  have hnp1 : pos < npos := by omega
  by_cases hb : utf8Valid (text.take npos) = true
  · -- the record boundary npos falls on a code point boundary: no overlap
    obtain ⟨s, n, hbs, hc, hsn, hn1, hn4⟩ :=
      char_ending_at text npos hv (by omega) hnple hb
    have hfls := firstLoopSize_boundary text npos s n hc hsn
    have hwin : sliceB text (npos - n) npos = (text.drop s).take n := by
      unfold sliceB
      have h1 : npos - n = s := by omega
      rw [h1]
      congr 1
      omega
    have hstrict : utf8Valid (sliceB text (npos - n) npos) = true := by
      rw [hwin]
      exact utf8Valid_char_take _ _ hc
    refine ⟨[], ?_, by simp, by simpa using hb, by simp, by intro _ _; rfl⟩
    simp only [readTextRecord, ← hnpos, hfls]
    rw [if_pos hstrict]
    have h0 : sliceB text npos (npos + 0) = [] := by
      unfold sliceB
      simp
    show some (sliceB text pos (pos + RECORD_SIZE), sliceB text npos (npos + 0)) =
      some (sliceB text pos (pos + RECORD_SIZE), [])
    rw [h0]
  · -- the record boundary npos falls inside a code point
    have hbf : utf8Valid (text.take npos) = false := by
      simpa using hb
    obtain ⟨s, hs, hbs, hcase⟩ := utf8_cover text hv npos hnple
    rcases hcase with rfl | ⟨n, hc, hin, hbn, hlen⟩
    · exact absurd hbs (by simp [hbf])
    have hn := headChar?_pos _ _ hc
    have hsnp : s < npos := by
      rcases Nat.lt_or_ge s npos with h | h
      · exact h
      · have : s = npos := by omega
        subst this
        exact absurd hbs (by simp [hbf])
    have hs1pos : 1 ≤ s := by omega
    obtain ⟨s1, n1, hbs1, hc1, hs1n, hn11, hn14⟩ :=
      char_ending_at text s hv hs1pos (by omega) hbs
    have hfls := firstLoopSize_straddle text npos s n s1 n1 hc hc1 hs1n hsnp hin
    have hstrictf : utf8Valid (sliceB text (npos - (npos - s1)) npos) = false := by
      have h1 : npos - (npos - s1) = s1 := by omega
      rw [h1, utf8Valid_slice_iff text s1 npos (by omega) hbs1]
      exact hbf
    have hsle := secondLoopExtra_straddle text npos s n s1 n1 hbs1 hc hc1 hs1n hsnp hin
      hbn hlen
    have hovl : (sliceB text npos (npos + (s + n - npos))).length = s + n - npos := by
      rw [sliceB_length text npos (npos + (s + n - npos)) (by omega) (by omega)]
      omega
    refine ⟨sliceB text npos (npos + (s + n - npos)), ?_, ?_, ?_, ?_, by intro _ _; rfl⟩
    · simp only [readTextRecord, ← hnpos, hfls]
      rw [if_neg (by simp [hstrictf]), hsle]
    · rw [hovl]
      omega
    · rw [hovl]
      have : npos + (s + n - npos) = s + n := by omega
      rw [this]
      exact hbn
    · rw [hovl]
      intro k hk
      have := utf8Valid_take_inside_false text s n (npos + k - s) hbs hc (by omega) (by omega)
      rw [show s + (npos + k - s) = npos + k by omega] at this
      exact this

/-- C1 witness: the record splitter theorem applied to the concrete stream
holding the bytes of the letter a followed by a two byte code point, read
from position 2 — a record start inside that code point, as the re-seek
after a nonempty overlap produces. -/
theorem read_text_record_spec_witness :
    utf8Valid [97, 195, 169] = true ∧ 2 < ([97, 195, 169] : List Nat).length ∧
    (∃ overlap, readTextRecord [97, 195, 169] 2 =
      some (sliceB [97, 195, 169] 2 (2 + RECORD_SIZE), overlap) ∧ overlap.length ≤ 3) :=
  ⟨by decide, by decide, by
    obtain ⟨ov, h1, h2, _⟩ :=
      read_text_record_spec [97, 195, 169] 2 (by decide) (by decide)
    exact ⟨ov, h1, h2⟩⟩

/-! ### Page break side channel (writer.py lines 1225-1244) -/

/-- Module toggle WRITE_PBREAKS, writer.py line 33. -/
def WRITE_PBREAKS : Bool := true

/-- Guarded decint on a Python unbounded integer: on a negative argument the
Python loop runs forever (decint_loop_termination), modelled as none. -/
def decintM (v : Int) (direction : Nat) : Option (List Nat) :=
  if 0 ≤ v then some (decint v.toNat direction) else none

/-- Length of the decint encoding, the number of 7-bit groups. -/
def decintLen (v : Nat) : Nat := (decintChunks v).length

theorem markHead_length (l : List Nat) : (markHead l).length = l.length := by
  cases l <;> simp [markHead]

theorem decint_length (v dir : Nat) : (decint v dir).length = decintLen v := by
  unfold decint decintLen
  split_ifs <;> simp [markHead_length, markLast]

theorem decintLen_pos (v : Nat) : 1 ≤ decintLen v := by
  unfold decintLen
  rcases Nat.lt_or_ge v 128 with h | h
  · rw [decintChunks_of_lt v h]; simp
  · rw [decintChunks_of_ge v h]; simp

theorem decintLen_of_lt (v : Nat) (h : v < 128) : decintLen v = 1 := by
  unfold decintLen
  rw [decintChunks_of_lt v h]
  rfl

theorem decintLen_of_ge (v : Nat) (h : 128 ≤ v) :
    decintLen v = 1 + decintLen (v >>> 7) := by
  unfold decintLen
  rw [decintChunks_of_ge v h]
  simp [Nat.add_comm]

theorem decintLen_mono (w : Nat) : ∀ v, v ≤ w → decintLen v ≤ decintLen w := by
  induction w using Nat.strong_induction_on with
  | _ w ih =>
    intro v hvw
    rcases Nat.lt_or_ge w 128 with h | h
    · rw [decintLen_of_lt v (by omega), decintLen_of_lt w h]
    · rcases Nat.lt_or_ge v 128 with h2 | h2
      · rw [decintLen_of_lt v h2, decintLen_of_ge w h]
        have := decintLen_pos (w >>> 7)
        omega
      · rw [decintLen_of_ge v h2, decintLen_of_ge w h]
        have hlt : w >>> 7 < w := by rw [shiftRight7_eq_div]; omega
        have hdiv : v >>> 7 ≤ w >>> 7 := by
          rw [shiftRight7_eq_div, shiftRight7_eq_div]
          exact Nat.div_le_div_right hvw
        have := ih (w >>> 7) hlt (v >>> 7) hdiv
        omega

theorem decintLen_le_of_lt_pow (k : Nat) : ∀ n, n < 128 ^ k → 1 ≤ k → decintLen n ≤ k := by
  induction k with
  | zero => intro n _ h; omega
  | succ k ih =>
    intro n hn _
    rcases Nat.lt_or_ge n 128 with h | h
    · rw [decintLen_of_lt n h]; omega
    · rw [decintLen_of_ge n h]
      have hk : 1 ≤ k := by
        by_contra hk0
        have : k = 0 := by omega
        subst this
        simp at hn
        omega
      have : n >>> 7 < 128 ^ k := by
        rw [shiftRight7_eq_div]
        rw [pow_succ] at hn
        exact Nat.div_lt_of_lt_mul (by omega)
      have := ih (n >>> 7) this hk
      omega

theorem int_crossing (f : Nat → Int) : ∀ (k a : Nat), 0 ≤ f a → f (a + k) < 0 →
    (∀ l, a ≤ l → l < a + k → f l - 1 ≤ f (l + 1)) →
    ∃ l, a ≤ l ∧ l ≤ a + k ∧ f l = 0 := by
  intro k
  induction k with
  | zero =>
    intro a ha hb _
    simp only [Nat.add_zero] at hb
    omega
  | succ k ih =>
    intro a ha hb hstep
    by_cases h0 : f a = 0
    · exact ⟨a, le_refl _, by omega, h0⟩
    · have ha1 : 0 ≤ f (a + 1) := by
        have := hstep a (le_refl _) (by omega)
        omega
      have hb1 : f (a + 1 + k) < 0 := by
        have : a + 1 + k = a + (k + 1) := by omega
        rw [this]
        exact hb
      obtain ⟨l, hl1, hl2, hl3⟩ := ih (a + 1) ha1 hb1
        (fun l h1 h2 => hstep l (by omega) (by omega))
      exact ⟨l, by omega, by omega, hl3⟩

theorem sizeLoop_exists (nextra : Nat) :
    ∃ l, 1 ≤ l ∧ l ≤ nextra + 2 ∧ decintLen (nextra + l) = l := by
  have hcross := int_crossing (fun l => (decintLen (nextra + l) : Int) - l) (nextra + 1) 1
  have ha : 0 ≤ (decintLen (nextra + 1) : Int) - 1 := by
    have := decintLen_pos (nextra + 1)
    omega
  have hb : (decintLen (nextra + (1 + (nextra + 1))) : Int) - (1 + (nextra + 1)) < 0 := by
    have hlt : 2 * nextra + 2 < 128 ^ (nextra + 1) := by
      have h1 : 2 * nextra + 2 < 2 ^ (2 * nextra + 2) := Nat.lt_two_pow _
      have h2 : (2 : Nat) ^ (2 * nextra + 2) = 4 ^ (nextra + 1) := by
        rw [show 2 * nextra + 2 = 2 * (nextra + 1) by omega, pow_mul]
        norm_num
      have h3 : (4 : Nat) ^ (nextra + 1) ≤ 128 ^ (nextra + 1) :=
        Nat.pow_le_pow_left (by norm_num) _
      omega
    have := decintLen_le_of_lt_pow (nextra + 1) (2 * nextra + 2)
      (by omega) (by omega)
    have h2 : nextra + (1 + (nextra + 1)) = 2 * nextra + 2 := by omega
    rw [h2]
    omega
  obtain ⟨l, hl1, hl2, hl3⟩ := hcross ha hb (by
    intro l _ _
    have := decintLen_mono (nextra + (l + 1)) (nextra + l) (by omega)
    omega)
  exact ⟨l, by omega, by omega, by omega⟩

/-- Break emission loop of _generate_text (writer.py lines 1229-1237): pop
the breaks within RECORD_SIZE of the record offset, emit a forward VWI of
the delta shifted right by three, and advance the running position by the
delta shifted left by three. -/
def pbreakLoop : List Int → Int → Int → Option (List Nat × List Int)
  | [], _, _ => some ([], [])
  | b :: rest, offset, running =>
    if b - offset < (RECORD_SIZE : Int) then
      let pv := Int.fdiv (b - running) 8
      match decintM pv DECINT_FORWARD with
      | none => none
      | some enc =>
        match pbreakLoop rest offset (running + pv * 8) with
        | none => none
        | some (out, rem) => some (enc ++ out, rem)
    else some ([], b :: rest)

/-- Self sizing loop of _generate_text (writer.py lines 1238-1243): the
smallest lsize, from one upwards, for which the backward VWI of
nextra + lsize occupies exactly lsize bytes.  The Python loop searches
unboundedly; a fixed point always exists by sizeLoop_exists, so the bounded
search is equivalent. -/
def sizeLoop (nextra : Nat) : List Nat :=
  match (List.range (nextra + 3)).find?
      (fun l => decide (1 ≤ l) &&
        decide ((decint (nextra + l) DECINT_BACKWARD).length = l)) with
  | some l => decint (nextra + l) DECINT_BACKWARD
  | none => []

/-- Page break side channel of one text record (writer.py lines 1225-1244):
the emitted break VWIs followed by the self describing backward length VWI,
together with the breaks left for the following records. -/
def pbreakChannel (breaks : List Int) (offset : Int) : Option (List Nat × List Int) :=
  match pbreakLoop breaks offset offset with
  | none => none
  | some (out, rem) => some (out ++ sizeLoop out.length, rem)

/-- Spec level description of the break bytes: one forward VWI per break of
(pb - running) >> 3, with running advanced by the delta << 3 after each. -/
def breakVwis (running : Int) : List Int → List (List Nat)
  | [] => []
  | pb :: rest =>
    let d := Int.fdiv (pb - running) 8
    decint d.toNat DECINT_FORWARD :: breakVwis (running + d * 8) rest


theorem sizeLoop_spec (nextra : Nat) :
    1 ≤ (sizeLoop nextra).length ∧
    decodeBackwardVwi (sizeLoop nextra) =
      some (nextra + (sizeLoop nextra).length) := by
  obtain ⟨l, hl1, hl2, hl3⟩ := sizeLoop_exists nextra
  have hmem : ∃ x ∈ List.range (nextra + 3),
      (decide (1 ≤ x) && decide ((decint (nextra + x) DECINT_BACKWARD).length = x)) = true := by
    refine ⟨l, List.mem_range.mpr (by omega), ?_⟩
    simp [hl1, decint_length, hl3]
  have hsome := List.find?_isSome.mpr hmem
  obtain ⟨l2, hl2eq⟩ := Option.isSome_iff_exists.mp hsome
  have hp := List.find?_some hl2eq
  simp only [Bool.and_eq_true, decide_eq_true_eq] at hp
  unfold sizeLoop
  rw [hl2eq]
  constructor
  · rw [hp.2]
    exact hp.1
  · rw [decode_decint_backward, hp.2]


theorem pbreakLoop_spec : ∀ (breaks : List Int) (offset running : Int),
    List.Sorted (· ≤ ·) breaks → (∀ b ∈ breaks, running ≤ b) →
    pbreakLoop breaks offset running =
      some ((breakVwis running
          (breaks.takeWhile (fun b => decide (b - offset < (RECORD_SIZE : Int))))).flatten,
        breaks.dropWhile (fun b => decide (b - offset < (RECORD_SIZE : Int)))) := by
  intro breaks
  induction breaks with
  | nil => intro offset running _ _; simp [pbreakLoop, breakVwis]
  | cons b rest ih =>
    intro offset running hsort hlow
    have hb : running ≤ b := hlow b (by simp)
    have hrest := (List.sorted_cons.mp hsort).2
    have hble : ∀ x ∈ rest, b ≤ x := (List.sorted_cons.mp hsort).1
    by_cases hc : b - offset < (RECORD_SIZE : Int)
    · have hpv : 0 ≤ Int.fdiv (b - running) 8 := Int.fdiv_nonneg (by omega) (by norm_num)
      have hrun2 : ∀ x ∈ rest, running + Int.fdiv (b - running) 8 * 8 ≤ x := by
        intro x hx
        have h1 := Int.fmod_add_fdiv (b - running) 8
        have h2 : 0 ≤ (b - running).fmod 8 := Int.fmod_nonneg (by omega) (by norm_num)
        have h3 := hble x hx
        omega
      simp only [pbreakLoop, if_pos hc, decintM, if_pos hpv]
      rw [ih offset _ hrest hrun2]
      rw [List.takeWhile_cons_of_pos (by simp [hc]), List.dropWhile_cons_of_pos (by simp [hc])]
      simp [breakVwis]
    · simp only [pbreakLoop, if_neg hc]
      rw [List.takeWhile_cons_of_neg (by simp [hc]), List.dropWhile_cons_of_neg (by simp [hc])]
      simp [breakVwis]

/-- C7: the page break side channel of a text record consists of one forward
VWI of (pb - running) >> 3 for each break pb in the record range, the
running position advancing by the delta shifted left by three after each,
followed by a backward VWI whose value equals the number of break bytes just
written plus the byte length of the VWI itself; with no breaks in range the
channel is exactly backward_vwi(1), a single byte 0x81 (writer.py lines
1225-1244). -/
theorem pbreak_channel_spec (breaks : List Int) (offset : Int)
    (hsort : List.Sorted (· ≤ ·) breaks) (hoff : ∀ b ∈ breaks, offset ≤ b) :
    ∃ out rem,
      pbreakChannel breaks offset = some (out ++ sizeLoop out.length, rem) ∧
      out = (breakVwis offset
        (breaks.takeWhile (fun b => decide (b - offset < (RECORD_SIZE : Int))))).flatten ∧
      breaks = breaks.takeWhile (fun b => decide (b - offset < (RECORD_SIZE : Int))) ++ rem ∧
      1 ≤ (sizeLoop out.length).length ∧
      decodeBackwardVwi (sizeLoop out.length) =
        some (out.length + (sizeLoop out.length).length) ∧
      ((breaks.takeWhile (fun b => decide (b - offset < (RECORD_SIZE : Int)))) = [] →
        out ++ sizeLoop out.length = [0x81] ∧
        sizeLoop out.length = decint 1 DECINT_BACKWARD) := by
  have hloop := pbreakLoop_spec breaks offset offset hsort hoff
  refine ⟨(breakVwis offset
      (breaks.takeWhile (fun b => decide (b - offset < (RECORD_SIZE : Int))))).flatten,
    breaks.dropWhile (fun b => decide (b - offset < (RECORD_SIZE : Int))),
    ?_, rfl, ?_, (sizeLoop_spec _).1, (sizeLoop_spec _).2, ?_⟩
  · unfold pbreakChannel
    rw [hloop]
  · exact (List.takeWhile_append_dropWhile _ _).symm
  · intro hempty
    rw [hempty]
    constructor
    · simp [breakVwis]
      decide
    · simp [breakVwis]
      decide

/-- C7 witness: a record at offset 0 with one break at 8 in range and one at
5000 out of range, and the empty record case. -/
theorem pbreak_channel_spec_witness :
    (∃ out rem, pbreakChannel [8, 5000] 0 = some (out ++ sizeLoop out.length, rem)) ∧
    (∃ out rem, pbreakChannel [] 0 = some (out ++ sizeLoop out.length, rem) ∧
      ((([] : List Int).takeWhile (fun b => decide (b - 0 < (RECORD_SIZE : Int)))) = [] →
        out ++ sizeLoop out.length = [0x81] ∧
        sizeLoop out.length = decint 1 DECINT_BACKWARD)) := by
  constructor
  · obtain ⟨out, rem, h1, _⟩ := pbreak_channel_spec [8, 5000] 0
      (by simp [List.sorted_cons]) (by intro b hb; fin_cases hb <;> norm_num)
    exact ⟨out, rem, h1⟩
  · obtain ⟨out, rem, h1, _, _, _, _, h6⟩ := pbreak_channel_spec [] 0
      (by simp) (by simp)
    exact ⟨out, rem, h1, h6⟩

/-! ### CTOC record chunking (writer.py lines 2222-2241) -/

/-- BytesIO write at a stream position: when the position lies past the end
of the buffer, Python pads the gap with null bytes before writing. -/
def bioWriteAt (buf : List Nat) (pos : Nat) (data : List Nat) : List Nat :=
  let padded := buf ++ List.replicate (pos - buf.length) 0
  padded.take pos ++ data ++ padded.drop (pos + data.length)

/-- State of the CTOC builder held by MobiWriter: the working BytesIO buffer
with its stream position, the sealed records, and the running record base
offset _ctoc_offset. -/
structure CtocState where
  buf : List Nat
  pos : Nat
  records : List (List Nat)
  ctocOffset : Nat

/-- Model of MobiWriter._add_to_ctoc (writer.py lines 2222-2241).  When the
string does not fit, the current record is padded with null bytes up to
0xFBF8, appended to the sealed records, the buffer truncated to size zero
and the base offset advanced by 0x10000.  Python BytesIO truncate does not
move the stream position (only the buffer is resized), so pos keeps its
value after the seal; the subsequent write then null-pads the fresh buffer
up to that position.  The returned offset is tell() + record_offset,
computed before the write. -/
def addToCtoc (st : CtocState) (s : List Nat) (recordOffset : Nat) : CtocState × Nat :=
  let sealed :=
    if (0xfbf8 : Int) - st.pos < 2 + s.length then
      let pad := ((0xfbf8 : Int) - st.pos).toNat
      let buf2 := bioWriteAt st.buf st.pos (List.replicate pad 0)
      ({ buf := [], pos := st.pos + pad, records := st.records ++ [buf2],
         ctocOffset := st.ctocOffset + 0x10000 }, st.ctocOffset + 0x10000)
    else (st, recordOffset)
  let st2 := sealed.1
  let written := decint s.length DECINT_FORWARD ++ s
  let offset := st2.pos + sealed.2
  ({ st2 with buf := bioWriteAt st2.buf st2.pos written, pos := st2.pos + written.length },
    offset)

theorem bioWriteAt_length (buf : List Nat) (pos : Nat) (data : List Nat) :
    (bioWriteAt buf pos data).length = max (max buf.length pos) (pos + data.length) := by
  unfold bioWriteAt
  simp only [List.length_append, List.length_take, List.length_drop, List.length_replicate]
  omega

/-- Initial CTOC builder state (writer.py lines 2296-2298 and 2382). -/
def ctocStateInit : CtocState := ⟨[], 0, [], 0⟩

/-- First call: a string of 64496 bytes at the current base offset. -/
def ctocStep1 : CtocState × Nat :=
  addToCtoc ctocStateInit (List.replicate 64496 97) ctocStateInit.ctocOffset

/-- Second call: a string of 10 bytes, overflowing the 0xFBF8 budget. -/
def ctocStep2 : CtocState × Nat :=
  addToCtoc ctocStep1.1 (List.replicate 10 98) ctocStep1.1.ctocOffset

/-- Third call: another 10 byte string, sealing the corrupted record. -/
def ctocStep3 : CtocState × Nat :=
  addToCtoc ctocStep2.1 (List.replicate 10 99) ctocStep2.1.ctocOffset

theorem decint_64496_len : (decint 64496 DECINT_FORWARD).length = 3 := by decide

theorem decint_10_len : (decint 10 DECINT_FORWARD).length = 1 := by decide

theorem addToCtoc_no_seal (st : CtocState) (s : List Nat) (ro : Nat)
    (h : ¬ ((0xfbf8 : Int) - st.pos < 2 + s.length)) :
    addToCtoc st s ro =
      ({ st with
          buf := bioWriteAt st.buf st.pos (decint s.length DECINT_FORWARD ++ s),
          pos := st.pos + (decint s.length DECINT_FORWARD ++ s).length }, st.pos + ro) := by
  unfold addToCtoc
  rw [if_neg h]

theorem addToCtoc_seal (st : CtocState) (s : List Nat) (ro : Nat)
    (h : (0xfbf8 : Int) - st.pos < 2 + s.length) :
    addToCtoc st s ro =
      (⟨bioWriteAt [] (st.pos + ((0xfbf8 : Int) - st.pos).toNat)
          (decint s.length DECINT_FORWARD ++ s),
        st.pos + ((0xfbf8 : Int) - st.pos).toNat +
          (decint s.length DECINT_FORWARD ++ s).length,
        st.records ++ [bioWriteAt st.buf st.pos
          (List.replicate ((0xfbf8 : Int) - st.pos).toNat 0)],
        st.ctocOffset + 0x10000⟩,
       st.pos + ((0xfbf8 : Int) - st.pos).toNat + (st.ctocOffset + 0x10000)) := by
  unfold addToCtoc
  rw [if_pos h]

theorem ctocStep1_eq :
    ctocStep1 = ({ buf := bioWriteAt [] 0 (decint 64496 DECINT_FORWARD ++
        List.replicate 64496 97), pos := 64499, records := [], ctocOffset := 0 }, 0) := by
  unfold ctocStep1 ctocStateInit
  rw [addToCtoc_no_seal _ _ _ (by simp only [List.length_replicate]; norm_num)]
  simp only [List.length_replicate, List.length_append, decint_64496_len]

theorem ctocStep2_eq :
    ctocStep2 = (⟨bioWriteAt [] 64504 (decint 10 DECINT_FORWARD ++ List.replicate 10 98),
        64515,
        [bioWriteAt (bioWriteAt [] 0 (decint 64496 DECINT_FORWARD ++ List.replicate 64496 97))
          64499 (List.replicate 5 0)],
        0x10000⟩, 0x1fbf8) := by
  unfold ctocStep2
  rw [ctocStep1_eq]
  rw [addToCtoc_seal _ _ _ (by simp only [List.length_replicate]; norm_num)]
  have h5 : Int.toNat 5 = 5 := rfl
  norm_num [List.length_replicate, List.length_append, decint_10_len, h5]

/-- C3 evaluation at the failing input: three successive _add_to_ctoc calls
with strings of 64496, 10 and 10 bytes.  Sealing the first record leaves the
BytesIO position at 0xFBF8 (truncate does not move it), so the address
returned for the second string is 0x10000 + 0xFBF8 instead of a fresh
record base, the next call seals again immediately, and the second sealed
record carries 0xFBF8 + 11 bytes, refuting the claim that no single CTOC
record exceeds 0xFBF8 bytes of payload. -/
theorem ctoc_overflow_violates_bound :
    ctocStep2.2 = 0x10000 + 0xfbf8 ∧
    (ctocStep3.1.records.getD 1 []).length = 0xfbf8 + 11 ∧
    ¬ (∀ r ∈ ctocStep3.1.records, r.length ≤ 0xfbf8) := by
  have hbuf2len : (bioWriteAt [] 64504
      (decint 10 DECINT_FORWARD ++ List.replicate 10 98)).length = 64515 := by
    rw [bioWriteAt_length]
    simp only [List.length_nil, List.length_append, List.length_replicate, decint_10_len]
    omega
  have hrecords : ctocStep3.1.records =
      [bioWriteAt (bioWriteAt [] 0 (decint 64496 DECINT_FORWARD ++
          List.replicate 64496 97)) 64499 (List.replicate 5 0),
       bioWriteAt (bioWriteAt [] 64504 (decint 10 DECINT_FORWARD ++ List.replicate 10 98))
        64515 (List.replicate (Int.toNat (-11)) 0)] := by
    unfold ctocStep3
    rw [ctocStep2_eq]
    rw [addToCtoc_seal _ _ _ (by simp only [List.length_replicate]; norm_num)]
    norm_num
  have hlen : (bioWriteAt (bioWriteAt [] 64504 (decint 10 DECINT_FORWARD ++
      List.replicate 10 98)) 64515 (List.replicate (Int.toNat (-11)) 0)).length = 64515 := by
    rw [bioWriteAt_length, hbuf2len]
    have hm : Int.toNat (-11) = 0 := rfl
    rw [hm]
    norm_num
  refine ⟨?_, ?_, ?_⟩
  · rw [ctocStep2_eq]
  · rw [hrecords]
    rw [List.getD_cons_succ, List.getD_cons_zero, hlen]
  · intro hall
    have hmem : bioWriteAt (bioWriteAt [] 64504 (decint 10 DECINT_FORWARD ++
        List.replicate 10 98)) 64515 (List.replicate (Int.toNat (-11)) 0) ∈
        ctocStep3.1.records := by
      rw [hrecords]
      exact List.mem_cons.mpr (Or.inr (List.mem_cons_self _ _))
    have hle := hall _ hmem
    rw [hlen] at hle
    omega


/-! ### C4: indexed navpoints (writer.py lines 496-671) and record 0 linkage -/

/-- Module toggle INDEXING, writer.py line 32. -/
def INDEXING : Bool := true

/-- A HTMLRecordData instance (writer.py lines 2482-2492): every field is
initialized to -1. -/
structure HTMLRec where
  openingNode : Int := -1
  openingNodeParent : Int := -1
  continuingNode : Int := -1
  continuingNodeParent : Int := -1
  currentSectionNodeCount : Int := -1
  nextSectionNumber : Int := -1
  nextSectionOpeningNode : Int := -1
  nextSectionNodeCount : Int := -1

/-- Fresh HTMLRecordData instance. -/
def HTMLRec.init : HTMLRec := {}

/-- Update of one slot of the _HTMLRecords list; the loop only touches
in-range record numbers, and an out-of-range index leaves the list
unchanged. -/
def updRec (l : List HTMLRec) (n : Nat) (f : HTMLRec → HTMLRec) : List HTMLRec :=
  match l.get? n with
  | some r => l.set n (f r)
  | none => l

/-- Mutable state threaded through the entry loop of
_generate_indexed_navpoints: the _HTMLRecords list, _currentSectionIndex
(writer.py line 306), myIndex, and sectionChangesInThisRecord. -/
structure NavSt where
  records : List HTMLRec
  csi : Int
  myIndex : Nat
  secChanges : Bool

/-- Length of one TOC entry (writer.py lines 536-547): the first following
sibling with a resolvable href and a strictly larger offset determines the
length; with no such sibling the length is content_length - offset. -/
def siblingLength (idOff : Nat → Option Nat) (contentLength : Nat) (offset : Nat) :
    List Nat → Int
  | [] => (contentLength : Int) - offset
  | h2 :: t =>
    match idOff h2 with
    | some offset2 =>
        if offset < offset2 then (offset2 : Int) - offset
        else siblingLength idOff contentLength offset t
    | none => siblingLength idOff contentLength offset t

/-- First sequential node (writer.py lines 521-527): the index of the first
article or chapter entry of the _ctoc_map.  When no entry matches, the
Python loop variable retains the last index, length - 1 (the unbound-name
case of an empty map is modelled as 0 and never exercised below). -/
def firstSeqNode (ctocMap : List String) : Nat :=
  match ctocMap.findIdx? (fun k => k == "article" || k == "chapter") with
  | some i => i
  | none => ctocMap.length - 1

/-- One loop iteration of _generate_indexed_navpoints after the href lookup
and the discontinuity check (writer.py lines 579-668).
sectionChangedInRecordNumber is initialized to -1 and never assigned (the
assignment at line 610 is commented out), so the comparison at line 627 is
false on every iteration and only its else branch is modelled. -/
def navStep (ctocMap : List String) (numRecs : Nat) (i : Nat) (offset : Nat)
    (length : Int) (st : NavSt) : NavSt :=
  let thisRecord := offset / RECORD_SIZE
  let klass := ctocMap.getD i ""
  let st :=
    if klass = "article" ∧ 0 < thisRecord then
      { st with records := updRec st.records thisRecord (fun r =>
          { r with continuingNodeParent :=
              if st.secChanges then st.csi - 1 else st.csi }) }
    else st
  if klass = "periodical" then st
  else if klass = "section" then
    if 0 < thisRecord then
      { st with
          secChanges := true
          csi := st.csi + 1
          records := updRec st.records thisRecord (fun r =>
            { r with
                nextSectionNumber := st.csi + 1
                nextSectionOpeningNode := (st.myIndex : Int) }) }
    else st
  else
    let st :=
      if (st.records.getD thisRecord HTMLRec.init).openingNode = -1 then
        { st with records := updRec st.records thisRecord (fun r =>
            { r with
                openingNode := (st.myIndex : Int)
                openingNodeParent := st.csi }) }
      else st
    let st :=
      { st with
          secChanges := false
          records := updRec st.records thisRecord (fun r =>
            { r with currentSectionNodeCount :=
                if r.currentSectionNodeCount = -1 then 1
                else r.currentSectionNodeCount + 1 }) }
    let myEndingRecord := Int.fdiv ((offset : Int) + length) (RECORD_SIZE : Int)
    let st :=
      if (thisRecord : Int) < myEndingRecord then
        { st with
            secChanges := false
            records := (List.range (myEndingRecord.toNat - thisRecord)).foldl
              (fun recs k => updRec recs (thisRecord + 1 + k) (fun r =>
                { r with
                    continuingNode := (st.myIndex : Int)
                    continuingNodeParent := st.csi
                    currentSectionNodeCount := 1 })) st.records }
      else if thisRecord = numRecs - 1 then
        if (st.records.getD thisRecord HTMLRec.init).continuingNode = -1 then
          { st with records := updRec st.records thisRecord (fun r =>
              { r with continuingNode := r.openingNode - 1 }) }
        else st
      else st
    { st with myIndex := st.myIndex + 1 }

/-- The entry loop of _generate_indexed_navpoints (writer.py lines 529-668)
over the remaining entries, carrying the entry index, previousOffset and
previousLength; none models the early return False at a missing href (line
533) or at the discontinuity check (line 577). -/
def navLoop (idOff : Nat → Option Nat) (ctocMap : List String) (contentLength : Nat)
    (firstSeq numRecs : Nat) :
    List Nat → Nat → Int → Int → NavSt → Option NavSt
  | [], _, _, _, st => some st
  | h :: rest, i, prevOff, prevLen, st =>
    match idOff h with
    | none => none
    | some offset =>
      let length := siblingLength idOff contentLength offset rest
      if firstSeq < i ∧ ctocMap.getD (i - 1) "" ≠ "section" ∧
          (offset : Int) ≠ prevOff + prevLen then none
      else
        navLoop idOff ctocMap contentLength firstSeq numRecs rest (i + 1)
          (offset : Int) length (navStep ctocMap numRecs i offset length st)

/-- MobiWriter._generate_indexed_navpoints (writer.py lines 496-671):
allocate one HTMLRecordData per HTML record, locate the first sequential
node, then run the entry loop; True exactly when the loop completes.
Entries are modelled by their hrefs, id_offsets by the partial map idOff. -/
def generateIndexedNavpoints (idOff : Nat → Option Nat) (ctocMap : List String)
    (contentLength : Nat) (entries : List Nat) : Bool :=
  let numRecs := contentLength / RECORD_SIZE + 1
  let st0 : NavSt := ⟨List.replicate numRecs HTMLRec.init, 0, 0, false⟩
  (navLoop idOff ctocMap contentLength (firstSeqNode ctocMap) numRecs
    entries 0 0 0 st0).isSome

/-- Primary index record field of record 0 (writer.py lines 1466-1467):
0xFFFFFFFF when _primary_index_record is still None. -/
def primaryIndexRecordField (pir : Option Nat) : Nat :=
  match pir with
  | none => 0xffffffff
  | some v => v

/-- The indexing step of _generate_content (writer.py lines 334-338):
_generate_index runs only when INDEXING holds and the book is indexable;
any exception it raises is caught and logged leaving _primary_index_record
unset, so an indexing failure never aborts the write.  genIndex is the
outcome of _generate_index as a value. -/
def generateContentPrimaryIndex (indexable : Bool)
    (genIndex : Except String (Option Nat)) : Option Nat :=
  if INDEXING && indexable then
    match genIndex with
    | Except.ok pir => pir
    | Except.error _ => none
  else none


/-- Helper: findIdx? with any start accumulator finds an index at most j
when the predicate holds at position j. -/
theorem findIdx_le_of_p (p : String → Bool) :
    ∀ (l : List String) (j : Nat), j < l.length → p (l.getD j "") = true →
    ∃ k, l.findIdx? p = some k ∧ k ≤ j := by
  intro l
  induction l with
  | nil => intro j hj _; simp at hj
  | cons a t ih =>
    intro j hj hp
    by_cases hpa : p a = true
    · exact ⟨0, by simp [List.findIdx?_cons, hpa], Nat.zero_le j⟩
    · cases j with
      | zero => simp [List.getD_cons_zero] at hp; exact absurd hp hpa
      | succ j0 =>
        have hj0 : j0 < t.length := by simp at hj; omega
        have hp0 : p (t.getD j0 "") = true := by
          simpa [List.getD_cons_succ] using hp
        obtain ⟨k, hk, hkle⟩ := ih j0 hj0 hp0
        refine ⟨k + 1, ?_, by omega⟩
        rw [List.findIdx?_cons, if_neg hpa, List.findIdx?_succ, hk]
        rfl

/-- The first sequential node index is at most any index holding an article
or chapter entry. -/
theorem firstSeqNode_le (ctocMap : List String) (j : Nat)
    (hj : ctocMap.getD j "" = "article" ∨ ctocMap.getD j "" = "chapter") :
    firstSeqNode ctocMap ≤ j := by
  have hjlen : j < ctocMap.length := by
    by_contra h
    rw [List.getD_eq_default _ _ (by omega)] at hj
    rcases hj with hj | hj <;> exact absurd hj (by decide)
  have hp : ((ctocMap.getD j "") == "article" || (ctocMap.getD j "") == "chapter") = true := by
    rcases hj with hj | hj <;> rw [hj] <;> decide
  obtain ⟨k, hk, hkle⟩ :=
    findIdx_le_of_p (fun k => k == "article" || k == "chapter") ctocMap j hjlen hp
  unfold firstSeqNode
  rw [hk]
  exact hkle

/-- When the loop on a nonempty entry list succeeds, the head href
resolves, the discontinuity check on it passes, and the loop on the tail
succeeds from the stepped state. -/
theorem navLoop_some_head (idOff : Nat → Option Nat) (ctocMap : List String)
    (contentLength firstSeq numRecs : Nat) (h : Nat) (rest : List Nat) (i : Nat)
    (prevOff prevLen : Int) (st : NavSt)
    (hs : (navLoop idOff ctocMap contentLength firstSeq numRecs (h :: rest) i
      prevOff prevLen st).isSome = true) :
    ∃ offset, idOff h = some offset ∧
      ¬ (firstSeq < i ∧ ctocMap.getD (i - 1) "" ≠ "section" ∧
          (offset : Int) ≠ prevOff + prevLen) ∧
      (navLoop idOff ctocMap contentLength firstSeq numRecs rest (i + 1)
        (offset : Int) (siblingLength idOff contentLength offset rest)
        (navStep ctocMap numRecs i offset
          (siblingLength idOff contentLength offset rest) st)).isSome = true := by
  cases hio : idOff h with
  | none =>
    simp only [navLoop, hio, Option.isSome_none] at hs
    exact absurd hs (by decide)
  | some offset =>
    simp only [navLoop, hio] at hs
    by_cases hg : firstSeq < i ∧ ctocMap.getD (i - 1) "" ≠ "section" ∧
        (offset : Int) ≠ prevOff + prevLen
    · rw [if_pos hg] at hs; simp at hs
    · rw [if_neg hg] at hs
      exact ⟨offset, rfl, hg, hs⟩

/-- When the loop succeeds, it also succeeds from every suffix of the
entries, with the previous offset and length recomputed from the entry just
before the suffix. -/
theorem navLoop_reach (idOff : Nat → Option Nat) (ctocMap : List String)
    (contentLength firstSeq numRecs : Nat) :
    ∀ (k : Nat) (entries : List Nat) (i : Nat) (prevOff prevLen : Int) (st : NavSt),
    (navLoop idOff ctocMap contentLength firstSeq numRecs entries i
      prevOff prevLen st).isSome = true →
    k ≤ entries.length → 0 < k →
    ∃ hprev offset st2,
      entries.get? (k - 1) = some hprev ∧
      idOff hprev = some offset ∧
      (navLoop idOff ctocMap contentLength firstSeq numRecs (entries.drop k) (i + k)
        (offset : Int) (siblingLength idOff contentLength offset (entries.drop k))
        st2).isSome = true := by
  intro k
  induction k with
  | zero => intro _ _ _ _ _ _ _ hk; omega
  | succ k0 ih =>
    intro entries i prevOff prevLen st hs hk _
    cases k0 with
    | zero =>
      cases entries with
      | nil => simp at hk
      | cons h rest =>
        obtain ⟨offset, hio, _, hnext⟩ :=
          navLoop_some_head idOff ctocMap contentLength firstSeq numRecs
            h rest i prevOff prevLen st hs
        exact ⟨h, offset, _, rfl, hio, hnext⟩
    | succ k1 =>
      obtain ⟨hprev, offset, st2, hget, hio, hnext⟩ :=
        ih entries i prevOff prevLen st hs (by omega) (by omega)
      have hklen : k1 + 1 < entries.length := by omega
      have hdrop : entries.drop (k1 + 1) =
          entries.get ⟨k1 + 1, hklen⟩ :: entries.drop (k1 + 2) := by
        simpa using List.drop_eq_getElem_cons hklen
      rw [hdrop] at hnext
      obtain ⟨offset2, hio2, _, hnext2⟩ :=
        navLoop_some_head idOff ctocMap contentLength firstSeq numRecs
          _ _ _ _ _ _ hnext
      have harith : i + (k1 + 1) + 1 = i + (k1 + 1 + 1) := by omega
      rw [harith] at hnext2
      have hgq : entries.get? (k1 + 1 + 1 - 1) = some (entries.get ⟨k1 + 1, hklen⟩) := by
        have he : k1 + 1 + 1 - 1 = k1 + 1 := by omega
        rw [he]
        simp [List.get?_eq_getElem?, List.getElem?_eq_getElem hklen]
      exact ⟨entries.get ⟨k1 + 1, hklen⟩, offset2, _, hgq, hio2, hnext2⟩


/-- C4: a TOC with an adjacent pair of chapter- or article-level entries
whose offsets are not contiguous makes _generate_indexed_navpoints return
False; the book is then written unindexed, record 0 storing 0xFFFFFFFF in
the primary index record field whatever _generate_index would have
produced, and the indexing failure never aborts the write. -/
theorem toc_discontinuity_unindexed (idOff : Nat → Option Nat) (ctocMap : List String)
    (contentLength : Nat) (entries : List Nat) (i po o : Nat)
    (hi : 1 ≤ i)
    (hk1 : ctocMap.getD (i - 1) "" = "article" ∨ ctocMap.getD (i - 1) "" = "chapter")
    (hoprev : (entries.get? (i - 1)).bind idOff = some po)
    (hocur : (entries.get? i).bind idOff = some o)
    (hmis : (o : Int) ≠ (po : Int) +
      siblingLength idOff contentLength po (entries.drop i)) :
    generateIndexedNavpoints idOff ctocMap contentLength entries = false ∧
    ∀ g, primaryIndexRecordField (generateContentPrimaryIndex
      (generateIndexedNavpoints idOff ctocMap contentLength entries) g) = 0xffffffff := by
  have hilen : i < entries.length := by
    by_contra hcon
    have hn : entries.get? i = none := List.get?_eq_none.mpr (by omega)
    rw [hn] at hocur
    simp at hocur
  have key : (navLoop idOff ctocMap contentLength (firstSeqNode ctocMap)
      (contentLength / RECORD_SIZE + 1) entries 0 0 0
      ⟨List.replicate (contentLength / RECORD_SIZE + 1) HTMLRec.init, 0, 0, false⟩).isSome
        = false := by
    cases hb : (navLoop idOff ctocMap contentLength (firstSeqNode ctocMap)
        (contentLength / RECORD_SIZE + 1) entries 0 0 0
        ⟨List.replicate (contentLength / RECORD_SIZE + 1) HTMLRec.init, 0, 0, false⟩).isSome with
    | false => rfl
    | true =>
      exfalso
      obtain ⟨hprev, offset, st2, hget, hio, hnext⟩ :=
        navLoop_reach idOff ctocMap contentLength (firstSeqNode ctocMap)
          (contentLength / RECORD_SIZE + 1) i entries 0 0 0 _ hb (by omega) (by omega)
      simp only [Nat.zero_add] at hnext
      rw [hget] at hoprev
      simp only [Option.some_bind] at hoprev
      rw [hio] at hoprev
      have hop : offset = po := Option.some.inj hoprev
      subst hop
      have hdrop : entries.drop i =
          entries.get ⟨i, hilen⟩ :: entries.drop (i + 1) := by
        simpa using List.drop_eq_getElem_cons hilen
      rw [hdrop] at hnext hmis
      obtain ⟨o2, hio2, hguard, _⟩ :=
        navLoop_some_head idOff ctocMap contentLength (firstSeqNode ctocMap)
          (contentLength / RECORD_SIZE + 1) _ _ _ _ _ _ hnext
      have hgeti : entries.get? i = some (entries.get ⟨i, hilen⟩) := by
        simp [List.get?_eq_getElem?, List.getElem?_eq_getElem hilen]
      rw [hgeti] at hocur
      simp only [Option.some_bind] at hocur
      rw [hio2] at hocur
      have ho2 : o2 = o := Option.some.inj hocur
      subst ho2
      have hfs : firstSeqNode ctocMap ≤ i - 1 := firstSeqNode_le ctocMap (i - 1) hk1
      exact hguard ⟨by omega, by rcases hk1 with hk | hk <;> rw [hk] <;> decide, hmis⟩
  have hmainF : generateIndexedNavpoints idOff ctocMap contentLength entries = false := by
    simp only [generateIndexedNavpoints]
    exact key
  refine ⟨hmainF, ?_⟩
  intro g
  rw [hmainF]
  rfl

/-- Concrete id_offsets map of the C4 witness: ten resolves to 0x1000 and
eleven to 0, so the second entry starts before the first ends. -/
def c4IdOff : Nat → Option Nat := fun h =>
  if h = 10 then some 0x1000 else if h = 11 then some 0 else none

/-- Witness for toc_discontinuity_unindexed: two chapter entries with
offsets 0x1000 and 0 in a document of length 0x2000 are rejected and leave
the primary index record field at 0xFFFFFFFF. -/
theorem toc_discontinuity_unindexed_witness :
    ((([10, 11] : List Nat).get? 0).bind c4IdOff = some 0x1000 ∧
     (([10, 11] : List Nat).get? 1).bind c4IdOff = some 0 ∧
     (0 : Int) ≠ (0x1000 : Int) +
       siblingLength c4IdOff 0x2000 0x1000 (([10, 11] : List Nat).drop 1)) ∧
    generateIndexedNavpoints c4IdOff ["chapter", "chapter"] 0x2000 [10, 11] = false ∧
    primaryIndexRecordField (generateContentPrimaryIndex
      (generateIndexedNavpoints c4IdOff ["chapter", "chapter"] 0x2000 [10, 11])
      (Except.ok (some 5))) = 0xffffffff := by
  have h := toc_discontinuity_unindexed c4IdOff ["chapter", "chapter"] 0x2000 [10, 11]
    1 0x1000 0 (by decide) (Or.inr (by decide)) (by decide) (by decide) (by decide)
  exact ⟨⟨by decide, by decide, by decide⟩, h.1, h.2 (Except.ok (some 5))⟩


/-! ### C5: TBS assembly for books (writer.py lines 673-734) -/

/-- Python bytes([x]) (writer.py lines 701 and 730): one byte when x lies
in [0, 256), a ValueError otherwise. -/
def byteSingleton (x : Int) : Option (List Nat) :=
  if 0 ≤ x ∧ x < 256 then some [x.toNat] else none

/-- Common tail of the indexed branch of _generate_tbs_book (writer.py
lines 721-732): shift the continuing node left by three, or in the TBS
type, and emit vwi(shifted), vwi(0), the node count byte unless the type is
2, and the trailing length vwi of the byte count plus one.  none marks the
two Python failure modes: decint on a negative shifted entry, which loops
forever, and bytes() on an out-of-range node count. -/
def tbsBookTail (found : Bool) (tbsType : Nat) (rec : HTMLRec) :
    Option (Bool × HTMLRec × List Nat) :=
  if 0 ≤ rec.continuingNode then
    let shifted : Nat := (rec.continuingNode.toNat <<< 3) ||| tbsType
    let s12 := decint shifted DECINT_FORWARD ++ decint 0 DECINT_FORWARD
    match (if tbsType ≠ 2 then byteSingleton rec.currentSectionNodeCount
           else some []) with
    | none => none
    | some s3 =>
      let body := s12 ++ s3
      some (found, rec, body ++ decint (body.length + 1) DECINT_FORWARD)
  else none

/-- MobiWriter._generate_tbs_book (writer.py lines 673-734) for one HTML
record: takes the record's HTMLRecordData, the _initialIndexRecordFound
flag and the record numbers, and returns the new flag, the possibly updated
record data and the assembled tbSequence. -/
def generateTbsBook (rec : HTMLRec) (found : Bool) (nrecords lastrecord : Nat) :
    Option (Bool × HTMLRec × List Nat) :=
  if found = false then
    if rec.currentSectionNodeCount = -1 then
      some (false, rec, decint 1 DECINT_FORWARD)
    else
      let tbsType : Nat := if rec.currentSectionNodeCount = 1 then 2 else 6
      let s12 := decint tbsType DECINT_FORWARD ++ decint 0 DECINT_FORWARD
      match (if tbsType ≠ 2 then byteSingleton rec.currentSectionNodeCount
             else some []) with
      | none => none
      | some s3 =>
        let body := s12 ++ s3
        some (true, rec, body ++ decint (body.length + 1) DECINT_FORWARD)
  else
    if nrecords = lastrecord ∧ rec.currentSectionNodeCount = 1 then
      tbsBookTail true 2 rec
    else if 0 < rec.continuingNode ∧ rec.openingNode = -1 then
      tbsBookTail true 3 { rec with currentSectionNodeCount := 0x80 }
    else
      tbsBookTail true 6 rec

/-- Oring a value below eight into a multiple of eight is addition. -/
theorem lor_eight_mul (c t : Nat) (ht : t < 8) : (8 * c) ||| t = 8 * c + t := by
  have h8 : (8 : Nat) = 2 ^ 3 := by norm_num
  apply Nat.eq_of_testBit_eq
  intro j
  rw [Nat.testBit_lor]
  have hA : (8 * c + t).testBit j = if j < 3 then t.testBit j else c.testBit (j - 3) := by
    rw [h8]
    exact Nat.testBit_mul_pow_two_add c (by omega) j
  have hB : (8 * c).testBit j = if j < 3 then false else c.testBit (j - 3) := by
    have hz := Nat.testBit_mul_pow_two_add c (show 0 < 2 ^ 3 by norm_num) j
    rw [h8, ← Nat.add_zero (2 ^ 3 * c)]
    simpa using hz
  rw [hA, hB]
  rcases Nat.lt_or_ge j 3 with hj | hj
  · simp [hj]
  · have htf : t.testBit j = false := Nat.testBit_lt_two_pow (by
      calc t < 8 := ht
      _ = 2 ^ 3 := h8
      _ ≤ 2 ^ j := Nat.pow_le_pow_right (by norm_num) hj)
    simp [Nat.not_lt.mpr hj, htf]

/-- C5: after the first indexed record, a span-only HTML record of a book
(continuing node positive, no opening node) that is not the terminal
singleton record gets TBS type 3: the emitted bytes are the forward vwi of
the continuing node shifted left three and ored with 3 (equal to eight
times the node plus three), the forward vwi of 0, the single pre-formed
node count byte 0x80, and the trailing length vwi of the byte count so far
plus one. -/
theorem tbs_book_span_only (rec : HTMLRec) (nrecords lastrecord : Nat)
    (hterm : ¬(nrecords = lastrecord ∧ rec.currentSectionNodeCount = 1))
    (hcont : 0 < rec.continuingNode) (hopen : rec.openingNode = -1) :
    ∃ body : List Nat,
      body = decint ((rec.continuingNode.toNat <<< 3) ||| 3) DECINT_FORWARD ++
        decint 0 DECINT_FORWARD ++ [0x80] ∧
      (rec.continuingNode.toNat <<< 3) ||| 3 = 8 * rec.continuingNode.toNat + 3 ∧
      generateTbsBook rec true nrecords lastrecord =
        some (true, { rec with currentSectionNodeCount := 0x80 },
          body ++ decint (body.length + 1) DECINT_FORWARD) := by
  refine ⟨_, rfl, ?_, ?_⟩
  · rw [Nat.shiftLeft_eq, Nat.mul_comm]
    exact lor_eight_mul rec.continuingNode.toNat 3 (by norm_num)
  · have step1 : generateTbsBook rec true nrecords lastrecord =
        tbsBookTail true 3 { rec with currentSectionNodeCount := 0x80 } := by
      unfold generateTbsBook
      rw [if_neg (by decide), if_neg hterm, if_pos ⟨hcont, hopen⟩]
    rw [step1]
    unfold tbsBookTail
    rw [if_pos (le_of_lt hcont), if_pos (by decide)]
    simp [byteSingleton, List.append_assoc]


/-- Span-only HTML record of the C5 witness: continuing node 2 and every
other field at its default of -1. -/
def c5Rec : HTMLRec := { continuingNode := 2 }

/-- Witness for tbs_book_span_only: record 3 of 5 with continuing node 2
yields the TBS bytes vwi(19), vwi(0), 0x80 and the length vwi. -/
theorem tbs_book_span_only_witness :
    (¬((3 : Nat) = 5 ∧ c5Rec.currentSectionNodeCount = 1) ∧
      0 < c5Rec.continuingNode ∧ c5Rec.openingNode = -1) ∧
    (∃ body : List Nat,
      body = decint ((c5Rec.continuingNode.toNat <<< 3) ||| 3) DECINT_FORWARD ++
        decint 0 DECINT_FORWARD ++ [0x80] ∧
      (c5Rec.continuingNode.toNat <<< 3) ||| 3 = 8 * c5Rec.continuingNode.toNat + 3 ∧
      generateTbsBook c5Rec true 3 5 =
        some (true, { c5Rec with currentSectionNodeCount := 0x80 },
          body ++ decint (body.length + 1) DECINT_FORWARD)) :=
  ⟨⟨by decide, by decide, by decide⟩,
    tbs_book_span_only c5Rec 3 5 (by decide) (by decide) (by decide)⟩


/-! ### C6: periodical conformance and the fallback to a book
    (writer.py lines 1132-1167 and 2363-2458) -/

/-- One TOC node as _evaluate_periodical_toc sees it: its class attribute
and its depth; klass none models a node with no class. -/
structure TocNode where
  klass : Option String
  depth : Nat

/-- Step of the conformance loop of _evaluate_periodical_toc (writer.py
lines 1146-1156): a periodical node away from depth 3, a section away from
depth 2 or an article away from depth 1 clears the flag. -/
def tocNodeStep (acc : Bool) (child : TocNode) : Bool :=
  if (child.klass = some "periodical" ∧ child.depth ≠ 3) ∨
     (child.klass = some "section" ∧ child.depth ≠ 2) ∨
     (child.klass = some "article" ∧ child.depth ≠ 1) then false else acc

/-- MobiWriter._evaluate_periodical_toc (writer.py lines 1132-1167): the
node loop, then the date/timestamp metadata check, then the masthead
check.  dateMeta and timestampMeta say whether the respective metadata
lists are nonempty; mastheadInGuide says whether the guide has a masthead
entry. -/
def evaluatePeriodicalToc (nodes : List TocNode) (dateMeta timestampMeta : Bool)
    (mastheadInGuide : Bool) : Bool :=
  let conforms := nodes.foldl tocNodeStep true
  let conforms := if dateMeta = false ∧ timestampMeta = false then false else conforms
  if mastheadInGuide = false then false else conforms

/-- The four node-type counters of _generate_ctoc (writer.py lines
2386-2389), all initialized to zero. -/
structure CtocCounts where
  periodicals : Nat
  sections : Nat
  articles : Nat
  chapters : Nat

/-- Counter outcome of the flat CTOC branch (writer.py lines 2400-2442),
taken when _conforming_periodical_toc is false: every entry it keeps goes
through _add_flat_ctoc_node (lines 2243-2265), which increments only
_chapterCount (line 2260), so with n entries kept the periodical, section
and article counters keep their initial value of zero. -/
def flatCtocCounts (n : Nat) : CtocCounts := ⟨0, 0, 0, n⟩

/-- MobiDocument type selection at the end of _generate_ctoc (writer.py
lines 2444-2456): a document with no periodical, section or article
entries, or one not in periodical mode, gets type 0x002; otherwise a
positive periodical count gives 0x101 for a newspaper publication type and
0x103 for the rest; any other combination raises NotImplementedError
(none).  pt is the parsed second component of the publication_type
metadata. -/
def ctocMobiType (mobiPeriodical : Bool) (counts : CtocCounts)
    (pt : Option String) : Option Nat :=
  if (counts.periodicals = 0 ∧ counts.sections = 0 ∧ counts.articles = 0) ∨
      mobiPeriodical = false then
    some 0x002
  else if counts.periodicals ≠ 0 then
    some (if pt = some "newspaper" then 0x101 else 0x103)
  else
    none

/-- A cleared conformance flag stays cleared through the node loop. -/
theorem foldl_tocNodeStep_false (nodes : List TocNode) :
    nodes.foldl tocNodeStep false = false := by
  induction nodes with
  | nil => rfl
  | cons a t ih =>
    have hstep : tocNodeStep false a = false := by
      unfold tocNodeStep; split <;> rfl
    rw [List.foldl_cons, hstep, ih]

/-- One misplaced node clears the conformance flag for good. -/
theorem foldl_tocNodeStep_mem (nodes : List TocNode) (nd : TocNode)
    (hmem : nd ∈ nodes)
    (hbad : (nd.klass = some "periodical" ∧ nd.depth ≠ 3) ∨
      (nd.klass = some "section" ∧ nd.depth ≠ 2) ∨
      (nd.klass = some "article" ∧ nd.depth ≠ 1)) :
    ∀ acc, nodes.foldl tocNodeStep acc = false := by
  induction nodes with
  | nil => exact absurd hmem (List.not_mem_nil nd)
  | cons a t ih =>
    intro acc
    rcases List.mem_cons.mp hmem with heq | hmem2
    · subst heq
      rw [List.foldl_cons]
      have hstep : tocNodeStep acc nd = false := by
        unfold tocNodeStep
        rw [if_pos hbad]
      rw [hstep, foldl_tocNodeStep_false]
    · rw [List.foldl_cons]
      exact ih hmem2 _

/-- C6: requesting periodical mode with a nonconforming TOC falls back to
a book.  _evaluate_periodical_toc returns False on a misplaced periodical,
section or article node, on missing date and timestamp metadata, or on a
missing masthead; the flat CTOC built for a nonconforming TOC leaves the
periodical, section and article counters at zero, so _generate_ctoc
instantiates a MobiDocument of type 0x002 rather than 0x101, 0x102 or
0x103. -/
theorem periodical_nonconforming_falls_back (nodes : List TocNode)
    (dateMeta timestampMeta mastheadInGuide : Bool) (n : Nat) (pt : Option String)
    (hnc : (∃ nd ∈ nodes,
        (nd.klass = some "periodical" ∧ nd.depth ≠ 3) ∨
        (nd.klass = some "section" ∧ nd.depth ≠ 2) ∨
        (nd.klass = some "article" ∧ nd.depth ≠ 1)) ∨
      (dateMeta = false ∧ timestampMeta = false) ∨ mastheadInGuide = false) :
    evaluatePeriodicalToc nodes dateMeta timestampMeta mastheadInGuide = false ∧
    ctocMobiType true (flatCtocCounts n) pt = some 0x002 := by
  constructor
  · simp only [evaluatePeriodicalToc]
    rcases hnc with ⟨nd, hmem, hbad⟩ | ⟨hd, ht⟩ | hm
    · rw [foldl_tocNodeStep_mem nodes nd hmem hbad true]
      split
      · rfl
      · split <;> rfl
    · have hdt : dateMeta = false ∧ timestampMeta = false := ⟨hd, ht⟩
      rw [if_pos hdt]
      split <;> rfl
    · rw [if_pos hm]
  · rfl

/-- Witness for periodical_nonconforming_falls_back: a section node at
depth 1 with date, timestamp and masthead all present. -/
theorem periodical_nonconforming_falls_back_witness :
    ((∃ nd ∈ [TocNode.mk (some "section") 1],
        (nd.klass = some "periodical" ∧ nd.depth ≠ 3) ∨
        (nd.klass = some "section" ∧ nd.depth ≠ 2) ∨
        (nd.klass = some "article" ∧ nd.depth ≠ 1)) ∨
      (true = false ∧ true = false) ∨ true = false) ∧
    (evaluatePeriodicalToc [TocNode.mk (some "section") 1] true true true = false ∧
      ctocMobiType true (flatCtocCounts 3) none = some 0x002) :=
  ⟨Or.inl ⟨TocNode.mk (some "section") 1, List.mem_cons_self _ _, by decide⟩,
    periodical_nonconforming_falls_back [TocNode.mk (some "section") 1]
      true true true 3 none
      (Or.inl ⟨TocNode.mk (some "section") 1, List.mem_cons_self _ _, by decide⟩)⟩


/-! ### C8: the publication date entry of _build_exth
    (writer.py lines 1534-1545) -/

/-- The datestr variable after the two guarded assignments of writer.py
lines 1535-1538, the metadata entries given as their encoded byte strings:
none models the name staying unbound because neither guard fired.  encode
always returns a byte string, never Python None. -/
def exthDatestr (dateMeta timestampMeta : Option (List Nat)) : Option (List Nat) :=
  match dateMeta with
  | some d => some d
  | none => timestampMeta

/-- The test and raise of writer.py lines 1540-1545 on top of the
assignments: reading datestr with both metadata lists empty raises
UnboundLocalError, the name never having been bound; otherwise datestr
holds a byte string, which is not None, so the pubdate record is written
and the NotImplementedError branch is skipped. -/
def buildExthDateOutcome (dateMeta timestampMeta : Option (List Nat)) :
    Except String (List Nat) :=
  match exthDatestr dateMeta timestampMeta with
  | none => Except.error "UnboundLocalError"
  | some d => Except.ok d

/-- The EXTH date outcome as _generate_record0 reaches it: writer.py line
1313 calls _build_exth in every mode, and between the assignments at lines
1535-1538 and the read at line 1540 the code never consults
_mobi_periodical, so the mode argument is not used by the date path (it
only selects other EXTH records, such as cdetype at lines 1528-1532). -/
def record0ExthDate (mobiPeriodical : Bool) (dateMeta timestampMeta : Option (List Nat)) :
    Except String (List Nat) :=
  buildExthDateOutcome dateMeta timestampMeta

/-- C8 counterexample: with date and timestamp metadata both empty the
date path of _build_exth raises in book mode just as in periodical mode,
and the raised error is the unbound-local read of datestr, not a
ConfigurationError (no such class exists in the module); a present date
entry passes with no error. -/
theorem exth_missing_date_counterexample :
    record0ExthDate false none none = Except.error "UnboundLocalError" ∧
    record0ExthDate true none none = Except.error "UnboundLocalError" ∧
    record0ExthDate false (some [50, 48, 49, 50]) none =
      Except.ok [50, 48, 49, 50] :=
  ⟨rfl, rfl, rfl⟩

/-- C8 amended: in either mode the EXTH date path fails exactly when both
the date and the timestamp metadata are empty, and the failure is the
UnboundLocalError of reading the never-assigned datestr; in every other
case the encoded date (or, failing that, timestamp) entry is emitted and
no error is raised — the NotImplementedError at writer.py line 1545 that
guards a None datestr is unreachable, datestr only ever being bound to an
encoded byte string. -/
theorem exth_missing_date_spec (mode : Bool) (dateMeta timestampMeta : Option (List Nat)) :
    (record0ExthDate mode dateMeta timestampMeta = Except.error "UnboundLocalError" ↔
      dateMeta = none ∧ timestampMeta = none) ∧
    (∀ d, dateMeta = some d →
      record0ExthDate mode dateMeta timestampMeta = Except.ok d) ∧
    (∀ t, dateMeta = none → timestampMeta = some t →
      record0ExthDate mode dateMeta timestampMeta = Except.ok t) := by
  refine ⟨⟨?_, ?_⟩, ?_, ?_⟩
  · intro h
    cases dateMeta with
    | some d => simp [record0ExthDate, buildExthDateOutcome, exthDatestr] at h
    | none =>
      cases timestampMeta with
      | some t => simp [record0ExthDate, buildExthDateOutcome, exthDatestr] at h
      | none => exact ⟨rfl, rfl⟩
  · rintro ⟨h1, h2⟩
    subst h1
    subst h2
    rfl
  · intro d hd
    subst hd
    rfl
  · intro t h1 h2
    subst h1
    subst h2
    rfl

/-- Witness for exth_missing_date_spec at a concrete present date entry in
book mode: the path does not error and emits the entry. -/
theorem exth_missing_date_spec_witness :
    (record0ExthDate false (some [50]) none = Except.error "UnboundLocalError" ↔
      (some [50] : Option (List Nat)) = none ∧ (none : Option (List Nat)) = none) ∧
    record0ExthDate false (some [50]) none = Except.ok [50] :=
  ⟨(exth_missing_date_spec false (some [50]) none).1,
   (exth_missing_date_spec false (some [50]) none).2.1 [50] rfl⟩


/-! ### C9: filepos slots and Serializer.fixup_links
    (writer.py lines 169-184 and 267-279) -/

/-- The literal bytes of filepos= written by serialize_href (writer.py
line 180). -/
def FILEPOS : List Nat := [102, 105, 108, 101, 112, 111, 115, 61]

/-- The ten ASCII zero digits of the placeholder (writer.py line 182). -/
def TENZEROS : List Nat := List.replicate 10 48

/-- An href as fixup_links compares it: the normalized path and the
optional fragment, each abstracted to a number; urldefrag keeps the path
and drops the fragment. -/
abbrev Href := Nat × Option Nat

/-- The slot write of Serializer.serialize_href (writer.py lines 180-183):
after the literal filepos= bytes the serializer records the stream
position into href_offsets and writes the ten-zero placeholder, here
returned as the new buffer and the recorded offset. -/
def serializeHrefSlot (buf : List Nat) : List Nat × Nat :=
  let buf2 := buf ++ FILEPOS
  (buf2 ++ TENZEROS, buf2.length)

/-- Decimal digits of n in ASCII, most significant first and empty for
zero; the fuel dominates the digit count and n + 1 always suffices. -/
def decDigitsF : Nat → Nat → List Nat
  | 0, _ => []
  | fuel + 1, n =>
    if n = 0 then []
    else decDigitsF fuel (n / 10) ++ [48 + n % 10]

/-- Python %010d of a nonnegative n (writer.py line 279): the decimal
rendering of n left-padded with ASCII zeros to at least ten characters. -/
def fmt010 (n : Nat) : List Nat :=
  let digits := if n = 0 then [48] else decDigitsF (n + 1) n
  List.replicate (10 - digits.length) 48 ++ digits

/-- The href lookup of fixup_links (writer.py lines 269-274): the full
href when id_offsets has it, else the defragmented href when that is
present, else nothing. -/
def resolveHref (idOff : Href → Option Nat) (h : Href) : Option Nat :=
  match idOff h with
  | some i => some i
  | none => idOff (h.1, none)

/-- The patch loop body of fixup_links for one href (writer.py lines
269-279): an unresolvable href leaves the buffer alone, a resolved offset
is rendered with %010d and written over every recorded slot position. -/
def fixupSlot (idOff : Href → Option Nat) (b : List Nat) (p : Href × List Nat) :
    List Nat :=
  match resolveHref idOff p.1 with
  | none => b
  | some ioff => p.2.foldl (fun b2 o => bioWriteAt b2 o (fmt010 ioff)) b

/-- Serializer.fixup_links (writer.py lines 267-279) over the recorded
href_offsets entries. -/
def fixupLinks (idOff : Href → Option Nat) (slots : List (Href × List Nat))
    (buf : List Nat) : List Nat :=
  slots.foldl (fixupSlot idOff) buf

/-- Fuel congruence for the digit expansion: any fuel above the value
works. -/
theorem decDigitsF_congr (v : Nat) : ∀ f1 f2 : Nat, v < f1 → v < f2 →
    decDigitsF f1 v = decDigitsF f2 v := by
  induction v using Nat.strong_induction_on with
  | _ v ih =>
    intro f1 f2 h1 h2
    obtain ⟨g1, rfl⟩ : ∃ g, f1 = g + 1 := ⟨f1 - 1, by omega⟩
    obtain ⟨g2, rfl⟩ : ∃ g, f2 = g + 1 := ⟨f2 - 1, by omega⟩
    simp only [decDigitsF]
    split
    · rfl
    · rename_i hne
      have hvpos : 0 < v := Nat.pos_of_ne_zero hne
      have hlt : v / 10 < v := Nat.div_lt_self hvpos (by norm_num)
      congr 1
      exact ih _ hlt _ _ (by omega) (by omega)

/-- A value below 10 ^ k has at most k decimal digits. -/
theorem decDigitsF_len_le : ∀ (k n : Nat), n < 10 ^ k →
    (decDigitsF (n + 1) n).length ≤ k := by
  intro k
  induction k with
  | zero =>
    intro n hn
    have h0 : n = 0 := by simpa using hn
    subst h0
    simp [decDigitsF]
  | succ k0 ih =>
    intro n hn
    by_cases h0 : n = 0
    · subst h0; simp [decDigitsF]
    · obtain ⟨g, hg⟩ : ∃ g, n = g + 1 := ⟨n - 1, by omega⟩
      rw [hg]
      have hstep : decDigitsF (g + 1 + 1) (g + 1) =
          decDigitsF (g + 1) ((g + 1) / 10) ++ [48 + (g + 1) % 10] := by
        rw [decDigitsF, if_neg (by omega : ¬g + 1 = 0)]
      rw [hstep, List.length_append]
      have hdiv : (g + 1) / 10 < 10 ^ k0 := by
        rw [Nat.div_lt_iff_lt_mul (by norm_num)]
        calc g + 1 < 10 ^ (k0 + 1) := by rw [← hg]; exact hn
        _ = 10 ^ k0 * 10 := by ring
      have hcg : decDigitsF (g + 1) ((g + 1) / 10) =
          decDigitsF ((g + 1) / 10 + 1) ((g + 1) / 10) := by
        apply decDigitsF_congr
        · exact Nat.div_lt_self (by omega) (by norm_num)
        · omega
      rw [hcg]
      have hih := ih ((g + 1) / 10) hdiv
      simp only [List.length_cons, List.length_nil]
      omega


/-- An offset below 10 ^ 10 renders to exactly ten bytes under %010d. -/
theorem fmt010_length (n : Nat) (hn : n < 10 ^ 10) : (fmt010 n).length = 10 := by
  unfold fmt010
  by_cases h0 : n = 0
  · subst h0; rfl
  · rw [if_neg h0, List.length_append, List.length_replicate]
    have hle := decDigitsF_len_le 10 n hn
    omega

/-- Writing inside the existing buffer splits it around the data. -/
theorem bioWriteAt_inside (buf data : List Nat) (pos : Nat) (h : pos ≤ buf.length) :
    bioWriteAt buf pos data =
      buf.take pos ++ data ++ buf.drop (pos + data.length) := by
  unfold bioWriteAt
  have hz : pos - buf.length = 0 := by omega
  rw [hz, List.replicate_zero, List.append_nil]

/-- Reading back the slot just written. -/
theorem bioWriteAt_read (buf data : List Nat) (pos : Nat)
    (h : pos + data.length ≤ buf.length) :
    sliceB (bioWriteAt buf pos data) pos (pos + data.length) = data := by
  rw [bioWriteAt_inside buf data pos (by omega)]
  unfold sliceB
  rw [List.append_assoc,
    List.drop_left' (by rw [List.length_take]; omega),
    Nat.add_sub_cancel_left,
    List.take_left' rfl]

/-- A write leaves every region ending at or before it untouched. -/
theorem bioWriteAt_read_before (buf data : List Nat) (pos a b : Nat)
    (h : pos ≤ buf.length) (hb : b ≤ pos) :
    sliceB (bioWriteAt buf pos data) a b = sliceB buf a b := by
  rcases le_or_lt a b with hab | hab
  · rw [bioWriteAt_inside buf data pos h]
    unfold sliceB
    rw [List.drop_append_of_le_length (by
        rw [List.length_append, List.length_take]; omega),
      List.take_append_of_le_length (by
        rw [List.length_drop, List.length_append, List.length_take]; omega),
      List.drop_append_of_le_length (by rw [List.length_take]; omega),
      List.take_append_of_le_length (by
        rw [List.length_drop, List.length_take]; omega),
      List.drop_take, List.take_take]
    have hm : min (b - a) (pos - a) = b - a := by omega
    rw [hm]
  · unfold sliceB
    have hz : b - a = 0 := by omega
    rw [hz]
    simp

/-- A write leaves every region starting at or after its end untouched. -/
theorem bioWriteAt_read_after (buf data : List Nat) (pos a b : Nat)
    (h : pos + data.length ≤ buf.length) (ha : pos + data.length ≤ a) :
    sliceB (bioWriteAt buf pos data) a b = sliceB buf a b := by
  rw [bioWriteAt_inside buf data pos (by omega)]
  unfold sliceB
  have hlen2 : (buf.take pos ++ data).length = pos + data.length := by
    rw [List.length_append, List.length_take]; omega
  rw [List.drop_append_eq_append_drop,
    List.drop_eq_nil_of_le (by rw [hlen2]; omega), List.nil_append, hlen2,
    List.drop_drop]
  have harith : pos + data.length + (a - (pos + data.length)) = a := by omega
  rw [harith]


/-- The write loop of fixup_links over the slot positions of one href
(writer.py lines 276-279): all writes land inside the buffer, so the
length is preserved; the positions being equal to the observed slot or
disjoint from it, the observed slot ends up holding the data when its
position is among them and keeps its old bytes otherwise. -/
theorem writeFold_spec (data : List Nat) (hdl : data.length = 10) (hoff : Nat) :
    ∀ (os : List Nat) (b : List Nat),
    (∀ o ∈ os, o + 10 ≤ b.length) →
    (∀ o ∈ os, o = hoff ∨ o + 10 ≤ hoff ∨ hoff + 10 ≤ o) →
    ((os.foldl (fun b2 o => bioWriteAt b2 o data) b).length = b.length ∧
     (hoff ∈ os →
       sliceB (os.foldl (fun b2 o => bioWriteAt b2 o data) b) hoff (hoff + 10) = data) ∧
     (hoff ∉ os →
       sliceB (os.foldl (fun b2 o => bioWriteAt b2 o data) b) hoff (hoff + 10) =
         sliceB b hoff (hoff + 10))) := by
  intro os
  induction os with
  | nil =>
    intro b _ _
    exact ⟨rfl, fun hmem => absurd hmem (List.not_mem_nil hoff), fun _ => rfl⟩
  | cons o os0 ih =>
    intro b hin hdisj
    rw [List.foldl_cons]
    have hob : o + 10 ≤ b.length := hin o (List.mem_cons_self _ _)
    have hlen1 : (bioWriteAt b o data).length = b.length := by
      rw [bioWriteAt_length]
      omega
    have hin2 : ∀ o2 ∈ os0, o2 + 10 ≤ (bioWriteAt b o data).length := by
      intro o2 ho2
      rw [hlen1]
      exact hin o2 (List.mem_cons_of_mem _ ho2)
    have hdisj2 : ∀ o2 ∈ os0, o2 = hoff ∨ o2 + 10 ≤ hoff ∨ hoff + 10 ≤ o2 :=
      fun o2 ho2 => hdisj o2 (List.mem_cons_of_mem _ ho2)
    obtain ⟨ihl, ihm, ihn⟩ := ih (bioWriteAt b o data) hin2 hdisj2
    refine ⟨by rw [ihl, hlen1], ?_, ?_⟩
    · intro hmem
      by_cases hmem0 : hoff ∈ os0
      · exact ihm hmem0
      · have hoeq : o = hoff := by
          rcases List.mem_cons.mp hmem with he | hm
          · exact he.symm
          · exact absurd hm hmem0
        rw [ihn hmem0, hoeq]
        have := bioWriteAt_read b data hoff (by rw [← hoeq, hdl]; exact hob)
        rw [hdl] at this
        exact this
    · intro hnot
      have hno : ¬ hoff ∈ (o :: os0) := hnot
      have hne : o ≠ hoff := fun he => hno (he ▸ List.mem_cons_self _ _)
      have hnos0 : hoff ∉ os0 := fun hm => hno (List.mem_cons_of_mem _ hm)
      rw [ihn hnos0]
      rcases hdisj o (List.mem_cons_self _ _) with he | hlo | hhi
      · exact absurd he hne
      · exact bioWriteAt_read_after b data o hoff (hoff + 10)
          (by omega) (by omega)
      · exact bioWriteAt_read_before b data o hoff (hoff + 10)
          (by omega) (by omega)


/-- One fixup_links iteration seen from a single slot position: length is
preserved; a resolved href writes its rendering over the position when
recorded, and any slot it does not record, or an unresolvable href, leaves
the position untouched. -/
theorem fixupSlot_spec (idOff : Href → Option Nat) (q : Href × List Nat)
    (b : List Nat) (hoff : Nat)
    (hin : ∀ o ∈ q.2, o + 10 ≤ b.length)
    (hbound : ∀ i, resolveHref idOff q.1 = some i → i < 10 ^ 10)
    (hdisj : ∀ o ∈ q.2, o = hoff ∨ o + 10 ≤ hoff ∨ hoff + 10 ≤ o) :
    (fixupSlot idOff b q).length = b.length ∧
    (∀ ioff, resolveHref idOff q.1 = some ioff → hoff ∈ q.2 →
      sliceB (fixupSlot idOff b q) hoff (hoff + 10) = fmt010 ioff) ∧
    ((resolveHref idOff q.1 = none ∨ hoff ∉ q.2) →
      sliceB (fixupSlot idOff b q) hoff (hoff + 10) = sliceB b hoff (hoff + 10)) := by
  cases hr : resolveHref idOff q.1 with
  | none =>
    have he : fixupSlot idOff b q = b := by
      unfold fixupSlot
      rw [hr]
    rw [he]
    refine ⟨rfl, ?_, fun _ => rfl⟩
    intro i hi
    cases hi
  | some ioff =>
    have he : fixupSlot idOff b q =
        q.2.foldl (fun b2 o => bioWriteAt b2 o (fmt010 ioff)) b := by
      unfold fixupSlot
      rw [hr]
    have hd10 : (fmt010 ioff).length = 10 := fmt010_length ioff (hbound ioff hr)
    obtain ⟨hl, hm, hn⟩ := writeFold_spec (fmt010 ioff) hd10 hoff q.2 b hin hdisj
    rw [he]
    refine ⟨hl, ?_, ?_⟩
    · intro i hi hmem
      rw [← Option.some.inj hi]
      exact hm hmem
    · intro hcase
      rcases hcase with hnone | hnot
      · cases hnone
      · exact hn hnot

/-- The whole fixup_links fold seen from a single slot position belonging
to a given href: length preserved; when the href resolves and some entry
records the position, the rendering lands there; when the href does not
resolve, or no write touches the position, the old bytes stay. -/
theorem fixupFold_spec (idOff : Href → Option Nat) (h : Href) (hoff : Nat) :
    ∀ (slots : List (Href × List Nat)) (b : List Nat),
    (∀ q ∈ slots, ∀ o ∈ q.2, o + 10 ≤ b.length) →
    (∀ q ∈ slots, ∀ i, resolveHref idOff q.1 = some i → i < 10 ^ 10) →
    (∀ q ∈ slots, ∀ o ∈ q.2, (q.1 = h ∧ o = hoff) ∨ o + 10 ≤ hoff ∨ hoff + 10 ≤ o) →
    ((slots.foldl (fixupSlot idOff) b).length = b.length ∧
     (∀ ioff, resolveHref idOff h = some ioff →
       (∃ q ∈ slots, q.1 = h ∧ hoff ∈ q.2) →
       sliceB (slots.foldl (fixupSlot idOff) b) hoff (hoff + 10) = fmt010 ioff) ∧
     (resolveHref idOff h = none →
       sliceB (slots.foldl (fixupSlot idOff) b) hoff (hoff + 10) =
         sliceB b hoff (hoff + 10)) ∧
     ((∀ q ∈ slots, ∀ o ∈ q.2, o + 10 ≤ hoff ∨ hoff + 10 ≤ o) →
       sliceB (slots.foldl (fixupSlot idOff) b) hoff (hoff + 10) =
         sliceB b hoff (hoff + 10))) := by
  intro slots
  induction slots with
  | nil =>
    intro b _ _ _
    exact ⟨rfl, fun ioff _ hex => absurd hex (by simp), fun _ => rfl, fun _ => rfl⟩
  | cons q slots0 ih =>
    intro b hin hbound hdisj
    rw [List.foldl_cons]
    have hinq : ∀ o ∈ q.2, o + 10 ≤ b.length := hin q (List.mem_cons_self _ _)
    have hbq : ∀ i, resolveHref idOff q.1 = some i → i < 10 ^ 10 :=
      hbound q (List.mem_cons_self _ _)
    have hdq : ∀ o ∈ q.2, o = hoff ∨ o + 10 ≤ hoff ∨ hoff + 10 ≤ o := by
      intro o ho
      rcases hdisj q (List.mem_cons_self _ _) o ho with ⟨_, he⟩ | hd | hd
      · exact Or.inl he
      · exact Or.inr (Or.inl hd)
      · exact Or.inr (Or.inr hd)
    obtain ⟨hql, hqm, hqn⟩ := fixupSlot_spec idOff q b hoff hinq hbq hdq
    have hin2 : ∀ q2 ∈ slots0, ∀ o ∈ q2.2, o + 10 ≤ (fixupSlot idOff b q).length := by
      intro q2 hq2 o ho
      rw [hql]
      exact hin q2 (List.mem_cons_of_mem _ hq2) o ho
    obtain ⟨ihl, ihm, ihn, ihd⟩ := ih (fixupSlot idOff b q) hin2
      (fun q2 hq2 => hbound q2 (List.mem_cons_of_mem _ hq2))
      (fun q2 hq2 => hdisj q2 (List.mem_cons_of_mem _ hq2))
    refine ⟨by rw [ihl, hql], ?_, ?_, ?_⟩
    · intro ioff hr hex
      by_cases hex0 : ∃ q2 ∈ slots0, q2.1 = h ∧ hoff ∈ q2.2
      · exact ihm ioff hr hex0
      · obtain ⟨qw, hqw, hqh, hqmem⟩ := hex
        have hqeq : qw = q := by
          rcases List.mem_cons.mp hqw with he | hm
          · exact he
          · exact absurd ⟨qw, hm, hqh, hqmem⟩ hex0
        have hdall : ∀ q2 ∈ slots0, ∀ o ∈ q2.2, o + 10 ≤ hoff ∨ hoff + 10 ≤ o := by
          intro q2 hq2 o ho
          rcases hdisj q2 (List.mem_cons_of_mem _ hq2) o ho with ⟨hh, he⟩ | hd | hd
          · exact absurd ⟨q2, hq2, hh, he ▸ ho⟩ hex0
          · exact Or.inl hd
          · exact Or.inr hd
        rw [ihd hdall]
        subst hqeq
        exact hqm ioff (by rw [hqh]; exact hr) hqmem
    · intro hr
      have hbq2 : sliceB (fixupSlot idOff b q) hoff (hoff + 10) =
          sliceB b hoff (hoff + 10) := by
        by_cases hqh : q.1 = h
        · exact hqn (Or.inl (by rw [hqh]; exact hr))
        · apply hqn
          right
          intro hmem
          rcases hdisj q (List.mem_cons_self _ _) hoff hmem with ⟨hh, _⟩ | hd | hd
          · exact hqh hh
          · omega
          · omega
      rw [ihn hr, hbq2]
    · intro hall
      have hnq : hoff ∉ q.2 := by
        intro hmem
        rcases hall q (List.mem_cons_self _ _) hoff hmem with hd | hd <;> omega
      rw [ihd (fun q2 hq2 => hall q2 (List.mem_cons_of_mem _ hq2)), hqn (Or.inr hnq)]


/-- C9: every filepos slot is recorded by serialize_href as ten ASCII zero
digits after the literal filepos= bytes, and fixup_links patches each slot
of an href with the %010d rendering of the id_offsets entry for the full
href, or of the defragmented href when only that one resolves, leaving the
slot unchanged when neither resolves — and, the rendering of an in-range
offset being exactly ten bytes and every write landing inside the buffer,
each slot stays exactly ten bytes and the buffer keeps its length.  The
slots hypothesis asks that the observed position be recorded for the
observed href, that all writes stay in the buffer, that all offsets are
below 10 ^ 10, and that other recorded positions do not straddle the
observed slot. -/
theorem fixup_links_spec (idOff : Href → Option Nat)
    (slots : List (Href × List Nat)) (buf : List Nat) (h : Href) (hoff : Nat)
    (hwit : ∃ q ∈ slots, q.1 = h ∧ hoff ∈ q.2)
    (hin : ∀ q ∈ slots, ∀ o ∈ q.2, o + 10 ≤ buf.length)
    (hbound : ∀ q ∈ slots, ∀ i, resolveHref idOff q.1 = some i → i < 10 ^ 10)
    (hdisj : ∀ q ∈ slots, ∀ o ∈ q.2,
      (q.1 = h ∧ o = hoff) ∨ o + 10 ≤ hoff ∨ hoff + 10 ≤ o) :
    (∀ b, sliceB (serializeHrefSlot b).1 (serializeHrefSlot b).2
        ((serializeHrefSlot b).2 + 10) = TENZEROS) ∧
    (fixupLinks idOff slots buf).length = buf.length ∧
    (∀ ioff, idOff h = some ioff →
      sliceB (fixupLinks idOff slots buf) hoff (hoff + 10) = fmt010 ioff ∧
      (fmt010 ioff).length = 10) ∧
    (∀ ioff, idOff h = none → idOff (h.1, none) = some ioff →
      sliceB (fixupLinks idOff slots buf) hoff (hoff + 10) = fmt010 ioff ∧
      (fmt010 ioff).length = 10) ∧
    (idOff h = none → idOff (h.1, none) = none →
      sliceB (fixupLinks idOff slots buf) hoff (hoff + 10) =
        sliceB buf hoff (hoff + 10)) := by
  obtain ⟨hfl, hfm, hfn, _⟩ := fixupFold_spec idOff h hoff slots buf hin hbound hdisj
  have hb010 : ∀ i, resolveHref idOff h = some i → i < 10 ^ 10 := by
    obtain ⟨qw, hqw, hqh, _⟩ := hwit
    intro i hi
    exact hbound qw hqw i (by rw [hqh]; exact hi)
  refine ⟨?_, hfl, ?_, ?_, ?_⟩
  · intro b
    unfold serializeHrefSlot sliceB
    rw [List.drop_left' rfl, Nat.add_sub_cancel_left]
    rfl
  · intro ioff hio
    have hr : resolveHref idOff h = some ioff := by
      unfold resolveHref
      rw [hio]
    exact ⟨hfm ioff hr hwit, fmt010_length ioff (hb010 ioff hr)⟩
  · intro ioff hno hfrag
    have hr : resolveHref idOff h = some ioff := by
      unfold resolveHref
      rw [hno, hfrag]
    exact ⟨hfm ioff hr hwit, fmt010_length ioff (hb010 ioff hr)⟩
  · intro hno hfrag
    have hr : resolveHref idOff h = none := by
      unfold resolveHref
      rw [hno, hfrag]
    exact hfn hr

/-- The id_offsets map of the C9 witness: only the full href (1, #2)
resolves, to offset 12345. -/
def c9IdOff : Href → Option Nat := fun x =>
  if x = ((1 : Nat), some (2 : Nat)) then some 12345 else none

/-- Witness for fixup_links_spec: one slot at position 8 of an
eighteen-byte buffer is patched to the ten bytes of %010d of 12345. -/
theorem fixup_links_spec_witness :
    ((∃ q ∈ [(((1 : Nat), some (2 : Nat)), [8])], q.1 = ((1 : Nat), some 2) ∧
        8 ∈ q.2) ∧
      c9IdOff (1, some 2) = some 12345) ∧
    (fixupLinks c9IdOff [((1, some 2), [8])] (FILEPOS ++ TENZEROS)).length =
      (FILEPOS ++ TENZEROS).length ∧
    sliceB (fixupLinks c9IdOff [((1, some 2), [8])] (FILEPOS ++ TENZEROS))
      8 (8 + 10) = fmt010 12345 ∧
    fmt010 12345 = [48, 48, 48, 48, 48, 49, 50, 51, 52, 53] := by
  have hmain := fixup_links_spec c9IdOff [((1, some 2), [8])] (FILEPOS ++ TENZEROS)
    (1, some 2) 8
    ⟨((1, some 2), [8]), List.mem_cons_self _ _, rfl, List.mem_cons_self _ _⟩
    (by decide)
    (by
      intro q hq i hi
      rw [List.mem_singleton.mp hq] at hi
      have hr : resolveHref c9IdOff ((1 : Nat), some (2 : Nat)) = some 12345 := rfl
      rw [hr] at hi
      rw [← Option.some.inj hi]
      norm_num)
    (by decide)
  exact ⟨⟨⟨((1, some 2), [8]), List.mem_cons_self _ _, rfl, List.mem_cons_self _ _⟩,
      rfl⟩,
    hmain.2.1, (hmain.2.2.1 12345 rfl).1, by decide⟩

end MobiWriter
